import Mathlib

/-!
Shallow embedding of the scheduling engine `src/scheduler.py` of the
repository FLowKa-Ploty-V01, together with proofs of the testable
properties of its specification.

Modelling conventions:
* Timestamps (Python `datetime`) are rational numbers of hours since an
  arbitrary epoch; `timedelta(hours=h)` is addition of `h`, and comparison of
  datetimes is the order on `ℚ`.  Python float arithmetic on hour counts is
  idealised as exact rational arithmetic.
* Python dicts keyed by machine name or by `(work-order id, op index)` are
  modelled either as association lists (`List (String × _)`, looked up with
  `List.lookup`; all uses have unique keys, coming from dict comprehensions)
  or as total functions updated pointwise.
* `sorted(xs, key=k)` is `List.insertionSort` with the relation `k a ≤ k b`:
  both are stable sorts by the total preorder `k a ≤ k b`, and the stable sort
  of a list by a total preorder is unique, so they are the same function.
* A raised Python exception is the `.error` case of `Except String _`.
-/

/-- A downtime interval `(start, end)`, half-open `[start, end)` in all the
overlap semantics of the code (scheduler.py line 20). -/
abbrev TimeInterval : Type := ℚ × ℚ

/-- The merging loop of `merge_intervals` (scheduler.py lines 27-32).  The
Python loop keeps the merged output in `out` and mutates its last element
`out[-1]`; here that last element is the explicit argument `cur`, and the
already-final elements are emitted in the result list directly. -/
def mergeIntervalsGo (cur : TimeInterval) : List TimeInterval → List TimeInterval
  | [] => [cur]
  | (s, e) :: rest =>
    if s ≤ cur.2 then mergeIntervalsGo (cur.1, max cur.2 e) rest
    else cur :: mergeIntervalsGo (s, e) rest

/-- `merge_intervals` (scheduler.py lines 22-33): sort the intervals by start
and merge every interval that starts no later than the current merged interval
ends.  Python `sorted` with `key=lambda x: x[0]` is the stable sort by the
key; `List.insertionSort` is stable for the same total preorder, and the
stable sort of a list by a total preorder is unique, so the two agree. -/
def merge_intervals (intervals : List TimeInterval) : List TimeInterval :=
  match intervals.insertionSort (fun a b => a.1 ≤ b.1) with
  | [] => []
  | i :: rest => mergeIntervalsGo i rest

/-- `overlaps` (scheduler.py lines 35-36): the boolean half-open overlap test
`a[0] < b[1] and b[0] < a[1]` used by the scheduler. -/
def overlaps (a b : TimeInterval) : Bool :=
  decide (a.1 < b.2) && decide (b.1 < a.2)

/-- One round of the `while True:` loop of `next_slot_avoiding_downtime`
(scheduler.py lines 49-59): scan the blocks in order for the first one
overlapping the candidate task window; if one is found, jump the candidate to
that block's end and start over.  `fuel` bounds the number of rounds; the
lemma `nextSlotGo_no_overlap` below proves that `blocks.length + 1` rounds
always reach the loop's fixed point, so the fuelled recursion computes exactly
what Python's unbounded loop computes. -/
def nextSlotGo (dur : ℚ) (blocks : List TimeInterval) : Nat → ℚ → ℚ
  | 0, cur => cur
  | fuel + 1, cur =>
    match blocks.find? (fun b => overlaps (cur, cur + dur) b) with
    | none => cur
    | some b => nextSlotGo dur blocks fuel b.2

/-- `next_slot_avoiding_downtime` (scheduler.py lines 38-59).  `downtime` is
the normalized per-machine downtime dict; a machine absent from it has no
blocks (`downtime.get(machine, [])`). -/
def next_slot_avoiding_downtime (start : ℚ) (duration_h : ℚ) (machine : String)
    (downtime : List (String × List TimeInterval)) : ℚ :=
  let blocks := (downtime.lookup machine).getD []
  if blocks.isEmpty then start
  else nextSlotGo duration_h blocks (blocks.length + 1) start

/-- `WorkOrder` (scheduler.py lines 10-16). `op_index` is `None` for
single-operation products and `1`-based for the ops of product `D`. -/
structure WorkOrder where
  id : String
  product : String
  duration_hours : ℚ
  op_index : Option Nat := none
  due_date : Option ℚ := none
deriving DecidableEq, Repr

/-- The `A`/`B`/`C` generation loop of `generate_orders_with_D` (scheduler.py
lines 82-92), for one product `p` with `n` remaining orders.  The ambient
global generator `random.random()` is modelled as the stream `rand` of its
successive outputs and the index `pos` of the next output to consume; note
that Python evaluates `(random() - 0.5) * 2.0 * jitter_hours if jitter_hours
else 0.0`, so the generator is consumed only when `jitter_hours` is non-zero
(and due dates are enabled).  Returns the generated orders, the next work
order number and the new stream position. -/
def genSimpleLoop (p : String) (dur : ℚ) (start : ℚ)
    (auto_due_slack_hours : Option ℚ) (jitter_hours : ℚ) (rand : Nat → ℚ) :
    Nat → Nat → Nat → List WorkOrder × Nat × Nat
  | 0, idx, pos => ([], idx, pos)
  | n + 1, idx, pos =>
    let step : Option ℚ × Nat :=
      match auto_due_slack_hours with
      | none => (none, pos)
      | some slack =>
        if jitter_hours = 0 then (some (start + (dur + slack + 0)), pos)
        else (some (start + (dur + slack + (rand pos - 1/2) * 2 * jitter_hours)), pos + 1)
    let wo : WorkOrder := ⟨"WO" ++ toString idx, p, dur, none, step.1⟩
    let rest := genSimpleLoop p dur start auto_due_slack_hours jitter_hours rand n (idx + 1) step.2
    (wo :: rest.1, rest.2.1, rest.2.2)

/-- The product-`D` generation loop of `generate_orders_with_D` (scheduler.py
lines 94-104): three fixed ops of 1, 3 and 2 hours sharing one work-order id
and one due date (`base = 1 + 3 + 2 + 2 * lag` plus slack, no jitter). -/
def genDLoop (lag_D_min_h : ℚ) (start : ℚ) (auto_due_slack_hours : Option ℚ) :
    Nat → Nat → List WorkOrder
  | 0, _ => []
  | n + 1, idx =>
    let dd : Option ℚ :=
      match auto_due_slack_hours with
      | none => none
      | some slack => some (start + ((1 + 3 + 2 + 2 * lag_D_min_h) + slack))
    let wo_id := "WO" ++ toString idx
    ⟨wo_id, "D", 1, some 1, dd⟩ :: ⟨wo_id, "D", 3, some 2, dd⟩ ::
      ⟨wo_id, "D", 2, some 3, dd⟩ :: genDLoop lag_D_min_h start auto_due_slack_hours n (idx + 1)

/-- `generate_orders_with_D` (scheduler.py lines 63-105).  `counts p` is
Python's `counts.get(p, 0)` and `durations_ABC` is assumed defined on
`A`/`B`/`C` (the Python dict access would raise otherwise).  The pair returned
is the order list together with the final position of the ambient random
stream, so that a second call in the same process starts from that position. -/
def generate_orders_with_D (counts : String → Nat) (durations_ABC : String → ℚ)
    (count_D : Nat) (lag_D_min_h : ℚ) (start : ℚ)
    (auto_due_slack_hours : Option ℚ) (jitter_hours : ℚ)
    (rand : Nat → ℚ) (pos : Nat) : List WorkOrder × Nat :=
  let ra := genSimpleLoop "A" (durations_ABC "A") start auto_due_slack_hours jitter_hours rand
    (counts "A") 1 pos
  let rb := genSimpleLoop "B" (durations_ABC "B") start auto_due_slack_hours jitter_hours rand
    (counts "B") ra.2.1 ra.2.2
  let rc := genSimpleLoop "C" (durations_ABC "C") start auto_due_slack_hours jitter_hours rand
    (counts "C") rb.2.1 rb.2.2
  (ra.1 ++ rb.1 ++ rc.1 ++ genDLoop lag_D_min_h start auto_due_slack_hours count_D rc.2.1,
    rc.2.2)

/-- Lexicographic combination of comparison results: the second comparison
decides only when the first is a tie.  This is how Python compares tuples
component by component. -/
def lexComp (c₁ c₂ : Ordering) : Ordering :=
  match c₁ with
  | .eq => c₂
  | o => o

/-- Three-way comparison induced by a linear order (used at `Bool`, `Nat` and
`ℚ` key components; Python `False < True` matches `Bool`'s order). -/
def cmpLin {α : Type*} [LinearOrder α] (a b : α) : Ordering :=
  if a < b then .lt else if b < a then .gt else .eq

/-- Three-way lexicographic comparison of char lists by code point: exactly
how Python compares `str` values. -/
def cmpCharList : List Char → List Char → Ordering
  | [], [] => .eq
  | [], _ :: _ => .lt
  | _ :: _, [] => .gt
  | a :: as, b :: bs =>
    if a < b then .lt else if b < a then .gt else cmpCharList as bs

/-- Python string comparison. -/
def cmpStr (a b : String) : Ordering := cmpCharList a.data b.data

/-- Python `rule.upper()` (they agree on the ASCII rule names this code
compares against). -/
def strUpper (s : String) : String := ⟨s.data.map Char.toUpper⟩

/-- Python `a ≤ b` on strings, as a proposition (used to state sortedness). -/
def strLeP (a b : String) : Prop := cmpStr a b ≠ .gt

instance : DecidableRel strLeP := fun _ _ => instDecidableNot

/-- The composite sort key of `schedule_orders` (scheduler.py line 141) lives
in this product, compared lexicographically by `cmpKey`: group flag
(`product != "D"`), work-order id, op index (`op_index or 0`), the two
rule-dependent components, then the `(product, op_index or 0)` tail common to
every branch of `sort_key`. -/
abbrev SchedKey : Type := Bool × String × Nat × ℚ × ℚ × String × Nat

/-- Python's lexicographic tuple comparison, on `SchedKey`. -/
def cmpKey (a b : SchedKey) : Ordering :=
  lexComp (cmpLin a.1 b.1) <|
    lexComp (cmpStr a.2.1 b.2.1) <|
      lexComp (cmpLin a.2.2.1 b.2.2.1) <|
        lexComp (cmpLin a.2.2.2.1 b.2.2.2.1) <|
          lexComp (cmpLin a.2.2.2.2.1 b.2.2.2.2.1) <|
            lexComp (cmpStr a.2.2.2.2.2.1 b.2.2.2.2.2.1)
              (cmpLin a.2.2.2.2.2.2 b.2.2.2.2.2.2)

/-- The two leading components of `sort_key` (scheduler.py lines 131-138),
encoded in `ℚ × ℚ` so that all four branches share one key type:
* `LPT` returns `(-duration, product, idx)`: encoded `(0, -duration)` — the
  constant first component never discriminates;
* `EDD` returns `(due_date is None, due_date or datetime.max, product, idx)`:
  the `None` flag becomes `0`/`1` (Python `False < True`), and the second
  component becomes `due_date or 0` — faithful because Python only ever
  compares that component between keys whose flags are equal, i.e. both
  `datetime.max` (both `0` here) or both actual due dates;
* `WSPT` returns `(duration, product, idx)`: encoded `(0, duration)`;
* any other rule returns `(product, idx)`: encoded `(0, 0)`.
Python's `rule.upper()` is `strUpper`. -/
def ruleKeyQ (rule : String) (o : WorkOrder) : ℚ × ℚ :=
  if strUpper rule = "LPT" then (0, -o.duration_hours)
  else if strUpper rule = "EDD" then
    (if o.due_date.isNone then 1 else 0, o.due_date.getD 0)
  else if strUpper rule = "WSPT" then (0, o.duration_hours)
  else (0, 0)

/-- The full sort key of `orders_sorted` (scheduler.py line 141):
`(o.product != "D", o.id, o.op_index or 0, *sort_key(o))`. -/
def schedKey (rule : String) (o : WorkOrder) : SchedKey :=
  (o.product != "D", o.id, o.op_index.getD 0,
    (ruleKeyQ rule o).1, (ruleKeyQ rule o).2, o.product, o.op_index.getD 0)

/-- Key comparison `key(a) ≤ key(b)` used for the stable sort at scheduler.py
line 141 (Python tuple `≤` is lexicographic comparison not ending `.gt`). -/
def schedLe (rule : String) (a b : WorkOrder) : Bool :=
  decide (cmpKey (schedKey rule a) (schedKey rule b) ≠ .gt)

/-- `orders_sorted` (scheduler.py line 141): the stable sort of the orders by
the composite key. -/
def orders_sorted (rule : String) (orders : List WorkOrder) : List WorkOrder :=
  orders.insertionSort (fun a b => schedLe rule a b = true)

/-- One scheduled task of the output plan: the dict built at scheduler.py
lines 172-181.  The Python key `end` is called `stop` (`end` is reserved in
Lean). -/
structure PlanItem where
  id : String
  product : String
  operation : String
  machine : String
  start : ℚ
  stop : ℚ
  duration_hours : ℚ
  due_date : Option ℚ
deriving DecidableEq, Repr

/-- The operation label `f"{o.product}{o.op_index or ''}"` (scheduler.py
line 175); note `0 or ''` is `''` in Python. -/
def opLabel (o : WorkOrder) : String :=
  match o.op_index with
  | none => o.product
  | some k => if k = 0 then o.product else o.product ++ toString k

/-- The `earliest` computation of the scheduling loop (scheduler.py lines
147-156): the global start, raised to the recorded end of the previous op of
the same `D` work order plus the lag when that record exists (the `pass`
branch keeps `earliest = start` when it does not). -/
def computeEarliest (gstart lag : ℚ) (prevEnd : String × Nat → Option ℚ)
    (o : WorkOrder) : ℚ :=
  if o.product = "D" then
    match o.op_index with
    | none => gstart
    | some k =>
      if 1 < k then
        match prevEnd (o.id, k - 1) with
        | none => gstart
        | some e => max gstart (e + lag)
      else gstart
  else gstart

/-- The machine-choice loop (scheduler.py lines 158-168): for each machine in
list order, the candidate start is `max(avail[m], earliest)` pushed past
downtime; the machine with the strictly smallest candidate wins, so the first
machine in the list wins ties.  `none` is returned exactly when `machines` is
empty, modelling the `IndexError` Python raises at `machines[0]`
(line 159). -/
def chooseStep (avail : String → ℚ) (earliest dur : ℚ)
    (downtime : List (String × List TimeInterval))
    (best : Option (String × ℚ × ℚ)) (m : String) : Option (String × ℚ × ℚ) :=
  let candidate := next_slot_avoiding_downtime (max (avail m) earliest) dur m downtime
  match best with
  | none => some (m, candidate, candidate + dur)
  | some (bm, bs, be) =>
    if candidate < bs then some (m, candidate, candidate + dur) else some (bm, bs, be)

def chooseMachine (machines : List String) (avail : String → ℚ)
    (earliest dur : ℚ) (downtime : List (String × List TimeInterval)) :
    Option (String × ℚ × ℚ) :=
  machines.foldl (chooseStep avail earliest dur downtime) none

/-- The main scheduling loop of `schedule_orders` (scheduler.py lines
146-186), one recursive step per sorted order: pick a machine, append the plan
item, advance that machine's availability, and record the end of a `D` op for
the precedence lookup.  An error anywhere loses the whole plan, as the Python
exception would. -/
def scheduleAux (machines : List String) (lag : ℚ)
    (dt : List (String × List TimeInterval)) (gstart : ℚ) :
    List WorkOrder → (String → ℚ) → (String × Nat → Option ℚ) →
    Except String (List PlanItem)
  | [], _, _ => .ok []
  | o :: rest, avail, prevEnd =>
    let earliest := computeEarliest gstart lag prevEnd o
    match chooseMachine machines avail earliest o.duration_hours dt with
    | none => .error "IndexError: list index out of range"
    | some (m, s, e) =>
      let avail' := fun x => if x = m then e else avail x
      let prevEnd' :=
        if o.product = "D" ∧ o.op_index.isSome then
          fun k => if k = (o.id, o.op_index.getD 0) then some e else prevEnd k
        else prevEnd
      match scheduleAux machines lag dt gstart rest avail' prevEnd' with
      | .ok p => .ok (⟨o.id, o.product, opLabel o, m, s, e, o.duration_hours, o.due_date⟩ :: p)
      | .error msg => .error msg

/-- The downtime normalization of scheduler.py line 126: every machine key of
the input dict gets its interval list merged. -/
def normalizeDowntime (downtime : List (String × List TimeInterval)) :
    List (String × List TimeInterval) :=
  downtime.map (fun p => (p.1, merge_intervals p.2))

/-- `schedule_orders` (scheduler.py lines 109-188).  A `None` downtime dict is
the empty list; availability starts at the global start for every machine
(line 143) and the precedence record starts empty (line 128). -/
def schedule_orders (orders : List WorkOrder) (machines : List String)
    (start : ℚ) (rule : String) (lag_D_min_h : ℚ)
    (downtime : List (String × List TimeInterval)) : Except String (List PlanItem) :=
  scheduleAux machines lag_D_min_h (normalizeDowntime downtime) start
    (orders_sorted rule orders) (fun _ => start) (fun _ => none)

/-- The normalized downtime blocks the scheduler consults for machine `m`:
`downtime.get(m, [])` after the line-126 normalization. -/
def mergedBlocksFor (downtime : List (String × List TimeInterval)) (m : String) :
    List TimeInterval :=
  (((normalizeDowntime downtime).lookup m)).getD []

/-- A re-ingested record set (the pandas DataFrame of `dataframe_to_plan`):
its column names and its rows, cells kept opaque as strings. -/
structure DataFrame where
  columns : List String
  rows : List (List String)
deriving DecidableEq, Repr

/-- `dataframe_to_plan` (scheduler.py lines 201-210): reject with the list of
missing required columns when any of them is absent, otherwise return the
row records (`df.to_dict(orient="records")`; the `pd.to_datetime` coercions
are identities in this timestamp model). -/
def dataframe_to_plan (df : DataFrame) :
    Except (List String) (List (List (String × String))) :=
  let req_cols := ["id", "product", "machine", "start", "end", "duration_hours"]
  let missing := req_cols.filter (fun c => decide (c ∉ df.columns))
  if missing = [] then .ok (df.rows.map (fun r => df.columns.zip r))
  else .error missing

/-- Per-machine metrics block (scheduler.py lines 223-228). -/
structure MachineStats where
  ops : Nat
  hours : ℚ
  utilization_pct : ℚ
  span_hours : ℚ
deriving DecidableEq, Repr

/-- Lateness metrics block (scheduler.py lines 235-239). -/
structure LatenessStats where
  avg_lateness_h : ℚ
  total_tardiness_h : ℚ
  percent_late : ℚ
deriving DecidableEq, Repr

/-- The result dict of `metrics` (scheduler.py lines 215 and 240); the empty
Python `lateness` dict is `none`. -/
structure Metrics where
  makespan_hours : ℚ
  by_machine : List (String × MachineStats)
  lateness : Option LatenessStats
deriving DecidableEq, Repr

/-- Python `round(x, 2)` idealised on rationals (rounding of the rare exact
half-cent values may differ from float banker's rounding; no claim depends on
it). -/
def roundQ2 (x : ℚ) : ℚ := (⌊x * 100 + 1 / 2⌋ : ℤ) / 100

/-- Python `round(x, 1)` idealised on rationals. -/
def roundQ1 (x : ℚ) : ℚ := (⌊x * 10 + 1 / 2⌋ : ℤ) / 10

/-- The group keys of `df.groupby("machine")` (scheduler.py line 217): the
distinct machines of the plan, ascending (pandas sorts group keys). -/
def planMachines (plan : List PlanItem) : List String :=
  ((plan.map (fun t => t.machine)).dedup).insertionSort strLeP

/-- One group's statistics (scheduler.py lines 218-228). -/
def machineStats (plan : List PlanItem) (m : String) : MachineStats :=
  let g := plan.filter (fun t => decide (t.machine = m))
  let dsum := (g.map (fun t => t.duration_hours)).sum
  let smin := ((g.map (fun t => t.start)).min?).getD 0
  let emax := ((g.map (fun t => t.stop)).max?).getD 0
  let span := emax - smin
  let util := if 0 < span then dsum / span * 100 else 0
  ⟨g.length, dsum, roundQ2 util, roundQ2 span⟩

/-- `metrics` (scheduler.py lines 212-240).  The lateness block exists iff
some task carries a due date (`df["due_date"].notna().any()`); the mean and
the total are over the dated tasks (pandas `skipna`), while `percent_late`
divides by the number of all tasks (`NaN > 0` is `False` in pandas). -/
def metrics (plan : List PlanItem) : Metrics :=
  if plan = [] then ⟨0, [], none⟩
  else
    let bym := (planMachines plan).map (fun m => (m, machineStats plan m))
    let makespan :=
      ((plan.map (fun t => t.stop)).max?).getD 0 - ((plan.map (fun t => t.start)).min?).getD 0
    let dued := plan.filter (fun t => t.due_date.isSome)
    let late : Option LatenessStats :=
      if dued.isEmpty then none
      else
        let lat := dued.map (fun t => t.stop - t.due_date.getD 0)
        let tard := lat.map (fun x => max x 0)
        some ⟨roundQ2 (lat.sum / (lat.length : ℚ)), roundQ2 tard.sum,
          roundQ1 (((tard.filter (fun x => decide (0 < x))).length : ℚ) / (plan.length : ℚ) * 100)⟩
    ⟨roundQ2 makespan, bym, late⟩

/-- Specification-side predicate: the time-point set of the half-open window
`[s, e)` meets the half-open interval `iv` (set intersection is non-empty).
`windowMeets_iff_exists` below checks this against the pointwise reading. -/
def windowMeets (s e : ℚ) (iv : TimeInterval) : Prop := max s iv.1 < min e iv.2

/-- Specification-side predicate: the point `x` lies in some interval of
`l`. -/
def coveredBy (x : ℚ) (l : List TimeInterval) : Prop := ∃ iv ∈ l, iv.1 ≤ x ∧ x < iv.2

deriving instance DecidableEq for Except

/-! ## Lemmas -/

/-- Soundness of a three-way comparison: ties are exactly equalities, swapping
the arguments swaps the verdict, and strict verdicts compose. -/
structure LawfulCmp {α : Type*} (c : α → α → Ordering) : Prop where
  eq_iff : ∀ a b, c a b = .eq ↔ a = b
  swap_eq : ∀ a b, (c a b).swap = c b a
  lt_trans : ∀ {a b d}, c a b = .lt → c b d = .lt → c a d = .lt

theorem LawfulCmp.gt_iff {α : Type*} {c : α → α → Ordering} (h : LawfulCmp c)
    (a b : α) : c a b = .gt ↔ c b a = .lt := by
  rw [← h.swap_eq b a]
  cases c b a <;> simp [Ordering.swap]

theorem LawfulCmp.le_total {α : Type*} {c : α → α → Ordering} (h : LawfulCmp c)
    (a b : α) : c a b ≠ .gt ∨ c b a ≠ .gt := by
  rcases hab : c a b with _ | _ | _
  · exact .inl (by simp)
  · exact .inl (by simp)
  · refine .inr ?_
    rw [h.gt_iff] at hab
    simp [hab]

theorem LawfulCmp.le_trans {α : Type*} {c : α → α → Ordering} (h : LawfulCmp c)
    {a b d : α} (h₁ : c a b ≠ .gt) (h₂ : c b d ≠ .gt) : c a d ≠ .gt := by
  rcases hab : c a b with _ | _ | _
  · rcases hbd : c b d with _ | _ | _
    · simp [h.lt_trans hab hbd]
    · obtain rfl := (h.eq_iff b d).mp hbd
      simp [hab]
    · exact absurd hbd h₂
  · obtain rfl := (h.eq_iff a b).mp hab
    exact h₂
  · exact absurd hab h₁

theorem lexComp_eq_lt_iff (c₁ c₂ : Ordering) :
    lexComp c₁ c₂ = .lt ↔ c₁ = .lt ∨ (c₁ = .eq ∧ c₂ = .lt) := by
  cases c₁ <;> simp [lexComp]

theorem lexComp_eq_eq_iff (c₁ c₂ : Ordering) :
    lexComp c₁ c₂ = .eq ↔ c₁ = .eq ∧ c₂ = .eq := by
  cases c₁ <;> simp [lexComp]

theorem lexComp_eq_gt_iff (c₁ c₂ : Ordering) :
    lexComp c₁ c₂ = .gt ↔ c₁ = .gt ∨ (c₁ = .eq ∧ c₂ = .gt) := by
  cases c₁ <;> simp [lexComp]

theorem lawfulCmp_lexComp {α β : Type*} {c₁ : α → α → Ordering}
    {c₂ : β → β → Ordering} (h₁ : LawfulCmp c₁) (h₂ : LawfulCmp c₂) :
    LawfulCmp (fun a b : α × β => lexComp (c₁ a.1 b.1) (c₂ a.2 b.2)) where
  eq_iff a b := by
    simp only [lexComp_eq_eq_iff, h₁.eq_iff, h₂.eq_iff, Prod.ext_iff]
  swap_eq a b := by
    rcases hc : c₁ a.1 b.1 with _ | _ | _
    · have hr : c₁ b.1 a.1 = .gt := by rw [← h₁.swap_eq a.1 b.1, hc]; rfl
      simp [lexComp, hc, hr, Ordering.swap]
    · have hr : c₁ b.1 a.1 = .eq := by rw [← h₁.swap_eq a.1 b.1, hc]; rfl
      simp [lexComp, hc, hr, h₂.swap_eq]
    · have hr : c₁ b.1 a.1 = .lt := by rw [← h₁.swap_eq a.1 b.1, hc]; rfl
      simp [lexComp, hc, hr, Ordering.swap]
  lt_trans {a b d} hab hbd := by
    rw [lexComp_eq_lt_iff] at hab hbd ⊢
    rcases hab with hab | ⟨hab, hab₂⟩ <;> rcases hbd with hbd | ⟨hbd, hbd₂⟩
    · exact .inl (h₁.lt_trans hab hbd)
    · obtain heq := (h₁.eq_iff _ _).mp hbd
      rw [← heq]
      exact .inl hab
    · obtain heq := (h₁.eq_iff _ _).mp hab
      rw [heq]
      exact .inl hbd
    · obtain heq := (h₁.eq_iff _ _).mp hab
      refine .inr ⟨by rw [heq]; exact hbd, ?_⟩
      exact h₂.lt_trans hab₂ hbd₂

theorem cmpLin_eq_lt_iff {α : Type*} [LinearOrder α] (a b : α) :
    cmpLin a b = .lt ↔ a < b := by
  unfold cmpLin
  split_ifs with h1 h2 <;> simp_all

theorem cmpLin_eq_eq_iff {α : Type*} [LinearOrder α] (a b : α) :
    cmpLin a b = .eq ↔ a = b := by
  unfold cmpLin
  split_ifs with h1 h2
  · simp [ne_of_lt h1]
  · simp [(ne_of_lt h2).symm]
  · simp [le_antisymm (le_of_not_lt h2) (le_of_not_lt h1)]

theorem cmpLin_eq_gt_iff {α : Type*} [LinearOrder α] (a b : α) :
    cmpLin a b = .gt ↔ b < a := by
  unfold cmpLin
  split_ifs with h1 h2
  · simp [asymm h1]
  · simp [h2]
  · simp [h2]

theorem lawfulCmp_cmpLin {α : Type*} [LinearOrder α] :
    LawfulCmp (cmpLin (α := α)) where
  eq_iff a b := cmpLin_eq_eq_iff a b
  swap_eq a b := by
    rcases lt_trichotomy a b with h | h | h
    · rw [(cmpLin_eq_lt_iff a b).mpr h, (cmpLin_eq_gt_iff b a).mpr h]; rfl
    · rw [(cmpLin_eq_eq_iff a b).mpr h, (cmpLin_eq_eq_iff b a).mpr h.symm]; rfl
    · rw [(cmpLin_eq_gt_iff a b).mpr h, (cmpLin_eq_lt_iff b a).mpr h]; rfl
  lt_trans {a b d} hab hbd := by
    rw [cmpLin_eq_lt_iff] at hab hbd ⊢
    exact lt_trans hab hbd

theorem cmpCharList_cons_lt_iff (a b : Char) (as bs : List Char) :
    cmpCharList (a :: as) (b :: bs) = .lt ↔
      a < b ∨ (a = b ∧ cmpCharList as bs = .lt) := by
  conv_lhs => rw [cmpCharList]
  split_ifs with h1 h2
  · simp [h1]
  · simp [h1, (ne_of_lt h2).symm]
  · simp [h1, le_antisymm (le_of_not_lt h2) (le_of_not_lt h1)]

theorem cmpCharList_eq_eq_iff : ∀ as bs : List Char, cmpCharList as bs = .eq ↔ as = bs
  | [], [] => by simp [cmpCharList]
  | [], _ :: _ => by simp [cmpCharList]
  | _ :: _, [] => by simp [cmpCharList]
  | a :: as, b :: bs => by
    conv_lhs => rw [cmpCharList]
    split_ifs with h1 h2
    · simp [ne_of_lt h1]
    · simp [(ne_of_lt h2).symm]
    · simp [le_antisymm (le_of_not_lt h2) (le_of_not_lt h1),
        cmpCharList_eq_eq_iff as bs]

theorem cmpCharList_swap : ∀ as bs : List Char,
    (cmpCharList as bs).swap = cmpCharList bs as
  | [], [] => rfl
  | [], _ :: _ => rfl
  | _ :: _, [] => rfl
  | a :: as, b :: bs => by
    rcases lt_trichotomy a b with h | h | h
    · simp [cmpCharList, h, asymm h, Ordering.swap]
    · subst h
      simp [cmpCharList, lt_irrefl, cmpCharList_swap as bs]
    · simp [cmpCharList, h, asymm h, Ordering.swap]

theorem cmpCharList_lt_trans : ∀ as bs cs : List Char,
    cmpCharList as bs = .lt → cmpCharList bs cs = .lt → cmpCharList as cs = .lt
  | [], [], _ => by simp [cmpCharList]
  | [], _ :: _, [] => by simp [cmpCharList]
  | [], _ :: _, _ :: _ => by simp [cmpCharList]
  | _ :: _, [], _ => by simp [cmpCharList]
  | _ :: _, _ :: _, [] => by simp [cmpCharList]
  | a :: as, b :: bs, c :: cs => by
    rw [cmpCharList_cons_lt_iff, cmpCharList_cons_lt_iff, cmpCharList_cons_lt_iff]
    rintro (hab | ⟨rfl, hab⟩) (hbc | ⟨rfl, hbc⟩)
    · exact .inl (lt_trans hab hbc)
    · exact .inl hab
    · exact .inl hbc
    · exact .inr ⟨rfl, cmpCharList_lt_trans as bs cs hab hbc⟩

theorem lawfulCmp_cmpStr : LawfulCmp cmpStr where
  eq_iff a b := by
    unfold cmpStr
    rw [cmpCharList_eq_eq_iff]
    exact ⟨fun h => by cases a; cases b; exact congrArg String.mk h, fun h => by rw [h]⟩
  swap_eq a b := cmpCharList_swap a.data b.data
  lt_trans {a b d} := cmpCharList_lt_trans a.data b.data d.data

theorem lawfulCmp_cmpKey : LawfulCmp cmpKey :=
  lawfulCmp_lexComp lawfulCmp_cmpLin <|
    lawfulCmp_lexComp lawfulCmp_cmpStr <|
      lawfulCmp_lexComp lawfulCmp_cmpLin <|
        lawfulCmp_lexComp lawfulCmp_cmpLin <|
          lawfulCmp_lexComp lawfulCmp_cmpLin <|
            lawfulCmp_lexComp lawfulCmp_cmpStr lawfulCmp_cmpLin

theorem schedLe_total (rule : String) (a b : WorkOrder) :
    schedLe rule a b = true ∨ schedLe rule b a = true := by
  unfold schedLe
  simp only [decide_eq_true_iff]
  exact lawfulCmp_cmpKey.le_total _ _

theorem schedLe_trans (rule : String) {a b c : WorkOrder}
    (h₁ : schedLe rule a b = true) (h₂ : schedLe rule b c = true) :
    schedLe rule a c = true := by
  unfold schedLe at h₁ h₂ ⊢
  simp only [decide_eq_true_iff] at h₁ h₂ ⊢
  exact lawfulCmp_cmpKey.le_trans h₁ h₂

theorem overlaps_iff (a b : TimeInterval) :
    overlaps a b = true ↔ a.1 < b.2 ∧ b.1 < a.2 := by
  simp [overlaps]

/-- If `p` implies `q` on `l` and some element of `l` satisfies `q` but not
`p`, then strictly fewer elements satisfy `p`. -/
theorem countP_lt_countP {α : Type*} {p q : α → Bool} :
    ∀ l : List α, (∀ x ∈ l, p x = true → q x = true) →
      ∀ b ∈ l, q b = true → p b = false → l.countP p < l.countP q
  | [], _, b, hb, _, _ => absurd hb (List.not_mem_nil b)
  | a :: t, hpq, b, hb, hqb, hpb => by
    rw [List.countP_cons, List.countP_cons]
    rcases List.mem_cons.mp hb with rfl | hbt
    · have h1 : t.countP p ≤ t.countP q :=
        List.countP_mono_left (fun x hx => hpq x (List.mem_cons_of_mem _ hx))
      simp [hpb, hqb]
      omega
    · have ih := countP_lt_countP t (fun x hx => hpq x (List.mem_cons_of_mem _ hx))
        b hbt hqb hpb
      have h2 : (if p a then 1 else 0) ≤ (if q a then 1 else 0) := by
        by_cases hpa : p a = true
        · simp [hpa, hpq a (List.mem_cons_self a t) hpa]
        · simp [hpa]
      omega

theorem nextSlotGo_le (dur : ℚ) (blocks : List TimeInterval) :
    ∀ (fuel : Nat) (cur : ℚ), cur ≤ nextSlotGo dur blocks fuel cur
  | 0, cur => le_refl cur
  | fuel + 1, cur => by
    simp only [nextSlotGo]
    cases hf : blocks.find? (fun b => overlaps (cur, cur + dur) b) with
    | none => exact le_refl cur
    | some b =>
      have hcur : cur < b.2 := ((overlaps_iff _ _).mp (List.find?_some hf)).1
      exact le_trans (le_of_lt hcur) (nextSlotGo_le dur blocks fuel b.2)

/-- With more fuel than there are blocks ending after the candidate, the loop
reaches its fixed point: the returned window overlaps no block.  This is the
termination argument of scheduler.py lines 49-59: every bump strictly
increases the candidate to some block's end. -/
theorem nextSlotGo_no_overlap (dur : ℚ) (blocks : List TimeInterval) :
    ∀ (fuel : Nat) (cur : ℚ),
      blocks.countP (fun x => decide (cur < x.2)) < fuel →
      ∀ b ∈ blocks,
        overlaps (nextSlotGo dur blocks fuel cur,
          nextSlotGo dur blocks fuel cur + dur) b = false
  | 0, _, h, _, _ => absurd h (Nat.not_lt_zero _)
  | fuel + 1, cur, h, b, hb => by
    simp only [nextSlotGo]
    cases hf : blocks.find? (fun x => overlaps (cur, cur + dur) x) with
    | none =>
      have hnone := List.find?_eq_none.mp hf b hb
      simpa using hnone
    | some x =>
      have hxmem : x ∈ blocks := List.mem_of_find?_eq_some hf
      have hcurx : cur < x.2 := ((overlaps_iff _ _).mp (List.find?_some hf)).1
      refine nextSlotGo_no_overlap dur blocks fuel x.2 ?_ b hb
      have hlt := @countP_lt_countP _
        (fun y => decide (x.2 < y.2)) (fun y => decide (cur < y.2)) blocks
        (fun y _ hxy => by
          simp only [decide_eq_true_iff] at hxy ⊢
          exact lt_trans hcurx hxy)
        x hxmem (by simpa using hcurx) (by simp)
      omega

/-- Any candidate `t ≥ cur` whose window overlaps no block is an upper bound
for the loop's result: each bump skips only infeasible candidates. -/
theorem nextSlotGo_min (dur : ℚ) (blocks : List TimeInterval) :
    ∀ (fuel : Nat) (cur t : ℚ),
      cur ≤ t → (∀ b ∈ blocks, overlaps (t, t + dur) b = false) →
      nextSlotGo dur blocks fuel cur ≤ t
  | 0, _, _, hct, _ => hct
  | fuel + 1, cur, t, hct, hfeas => by
    simp only [nextSlotGo]
    cases hf : blocks.find? (fun x => overlaps (cur, cur + dur) x) with
    | none => exact hct
    | some x =>
      have hxmem : x ∈ blocks := List.mem_of_find?_eq_some hf
      have hov := (overlaps_iff _ _).mp (List.find?_some hf)
      have hx2t : x.2 ≤ t := by
        by_contra hlt
        push_neg at hlt
        have hovt : overlaps (t, t + dur) x = true :=
          (overlaps_iff _ _).mpr ⟨hlt, lt_of_lt_of_le hov.2 (add_le_add_right hct dur)⟩
        have hfx := hfeas x hxmem
        rw [hovt] at hfx
        simp at hfx
      exact nextSlotGo_min dur blocks fuel x.2 t hx2t hfeas

/-- Full functional specification of `next_slot_avoiding_downtime`: the result
is at least the candidate, its window overlaps no block of the machine, and it
is the least such timestamp. -/
theorem next_slot_spec (start dur : ℚ) (machine : String)
    (dt : List (String × List TimeInterval)) :
    start ≤ next_slot_avoiding_downtime start dur machine dt ∧
    (∀ b ∈ (dt.lookup machine).getD [],
      overlaps (next_slot_avoiding_downtime start dur machine dt,
        next_slot_avoiding_downtime start dur machine dt + dur) b = false) ∧
    (∀ t, start ≤ t →
      (∀ b ∈ (dt.lookup machine).getD [], overlaps (t, t + dur) b = false) →
      next_slot_avoiding_downtime start dur machine dt ≤ t) := by
  unfold next_slot_avoiding_downtime
  by_cases hempty : ((dt.lookup machine).getD []).isEmpty
  · rw [List.isEmpty_iff] at hempty
    simp [hempty]
  · simp only [hempty, if_false]
    refine ⟨nextSlotGo_le _ _ _ _, nextSlotGo_no_overlap _ _ _ _ ?_,
      fun t ht hf => nextSlotGo_min _ _ _ _ _ ht hf⟩
    have : ((dt.lookup machine).getD []).countP (fun x => decide (start < x.2)) ≤
        ((dt.lookup machine).getD []).length := List.countP_le_length _
    omega

theorem windowMeets_iff_exists (s e : ℚ) (iv : TimeInterval) :
    windowMeets s e iv ↔ ∃ x, s ≤ x ∧ x < e ∧ iv.1 ≤ x ∧ x < iv.2 := by
  unfold windowMeets
  constructor
  · intro h
    exact ⟨max s iv.1, le_max_left _ _, (lt_min_iff.mp h).1,
      le_max_right _ _, (lt_min_iff.mp h).2⟩
  · rintro ⟨x, hsx, hxe, hix, hxi⟩
    exact lt_of_le_of_lt (max_le hsx hix) (lt_min hxe hxi)

theorem overlaps_eq_windowMeets {s e : ℚ} {iv : TimeInterval} (hse : s < e)
    (hiv : iv.1 < iv.2) : overlaps (s, e) iv = true ↔ windowMeets s e iv := by
  rw [overlaps_iff]
  unfold windowMeets
  constructor
  · rintro ⟨h1, h2⟩
    exact lt_of_lt_of_le (by rw [max_lt_iff]; exact ⟨lt_min hse h1, lt_min h2 hiv⟩) (le_refl _)
  · intro h
    exact ⟨(lt_min_iff.mp (lt_of_le_of_lt (le_max_left _ _) h)).2,
      (lt_min_iff.mp (lt_of_le_of_lt (le_max_right _ _) h)).1⟩

theorem coveredBy_cons (x : ℚ) (a : TimeInterval) (l : List TimeInterval) :
    coveredBy x (a :: l) ↔ (a.1 ≤ x ∧ x < a.2) ∨ coveredBy x l := by
  constructor
  · rintro ⟨iv, hiv, h1, h2⟩
    rcases List.mem_cons.mp hiv with rfl | h
    · exact .inl ⟨h1, h2⟩
    · exact .inr ⟨iv, h, h1, h2⟩
  · rintro (⟨h1, h2⟩ | ⟨iv, h, h1, h2⟩)
    · exact ⟨a, List.mem_cons_self _ _, h1, h2⟩
    · exact ⟨iv, List.mem_cons_of_mem _ h, h1, h2⟩

theorem coveredBy_perm {l₁ l₂ : List TimeInterval} (h : l₁.Perm l₂) (x : ℚ) :
    coveredBy x l₁ ↔ coveredBy x l₂ := by
  unfold coveredBy
  exact ⟨fun ⟨iv, hm, hx⟩ => ⟨iv, h.mem_iff.mp hm, hx⟩,
    fun ⟨iv, hm, hx⟩ => ⟨iv, h.mem_iff.mpr hm, hx⟩⟩

/-- The merging loop covers exactly the points of its input intervals, when
the input tail is sorted by start and starts no earlier than `cur`. -/
theorem mergeIntervalsGo_covered :
    ∀ (rest : List TimeInterval) (cur : TimeInterval),
      (∀ iv ∈ rest, cur.1 ≤ iv.1) → rest.Pairwise (fun a b => a.1 ≤ b.1) →
      ∀ x, coveredBy x (mergeIntervalsGo cur rest) ↔ coveredBy x (cur :: rest)
  | [], cur, _, _, x => Iff.rfl
  | (s, e) :: rest, cur, hlb, hsorted, x => by
    rw [mergeIntervalsGo]
    have hcur1s : cur.1 ≤ s := hlb (s, e) (List.mem_cons_self _ _)
    have hlbrest : ∀ iv ∈ rest, s ≤ iv.1 := by
      intro iv hiv
      exact (List.pairwise_cons.mp hsorted).1 iv hiv
    by_cases hs : s ≤ cur.2
    · rw [if_pos hs]
      have hlb' : ∀ iv ∈ rest, (cur.1, max cur.2 e).1 ≤ iv.1 := fun iv hiv =>
        hlb iv (List.mem_cons_of_mem _ hiv)
      rw [mergeIntervalsGo_covered rest (cur.1, max cur.2 e) hlb'
        (List.pairwise_cons.mp hsorted).2 x]
      rw [coveredBy_cons, coveredBy_cons, coveredBy_cons]
      constructor
      · rintro (⟨h1, h2⟩ | h)
        · simp only [max_lt_iff] at *
          by_cases hx2 : x < cur.2
          · exact .inl ⟨h1, hx2⟩
          · refine .inr (.inl ⟨le_trans hs (le_of_not_lt hx2), ?_⟩)
            rcases lt_max_iff.mp h2 with h | h
            · exact absurd h hx2
            · exact h
        · exact .inr (.inr h)
      · rintro (⟨h1, h2⟩ | ⟨h1, h2⟩ | h)
        · exact .inl ⟨h1, lt_of_lt_of_le h2 (le_max_left _ _)⟩
        · exact .inl ⟨le_trans hcur1s h1, lt_of_lt_of_le h2 (le_max_right _ _)⟩
        · exact .inr h
    · rw [if_neg hs]
      rw [coveredBy_cons,
        mergeIntervalsGo_covered rest (s, e) hlbrest (List.pairwise_cons.mp hsorted).2 x,
        coveredBy_cons, coveredBy_cons, coveredBy_cons]
  termination_by rest => rest.length

/-- Structure of the merging loop's output: consecutive intervals are
separated by a gap, every interval is non-degenerate, and all intervals start
no earlier than `cur` does. -/
theorem mergeIntervalsGo_structure :
    ∀ (rest : List TimeInterval) (cur : TimeInterval),
      cur.1 < cur.2 → (∀ iv ∈ rest, iv.1 < iv.2) →
      (∀ iv ∈ rest, cur.1 ≤ iv.1) → rest.Pairwise (fun a b => a.1 ≤ b.1) →
      (mergeIntervalsGo cur rest).Pairwise (fun a b => a.2 < b.1) ∧
      (∀ iv ∈ mergeIntervalsGo cur rest, iv.1 < iv.2) ∧
      (∀ iv ∈ mergeIntervalsGo cur rest, cur.1 ≤ iv.1)
  | [], cur, hcv, _, _, _ => by
    refine ⟨List.pairwise_singleton _ _, ?_, ?_⟩ <;>
      simp [mergeIntervalsGo, hcv]
  | (s, e) :: rest, cur, hcv, hv, hlb, hsorted => by
    rw [mergeIntervalsGo]
    have hcur1s : cur.1 ≤ s := hlb (s, e) (List.mem_cons_self _ _)
    have hlbrest : ∀ iv ∈ rest, s ≤ iv.1 := fun iv hiv =>
      (List.pairwise_cons.mp hsorted).1 iv hiv
    by_cases hs : s ≤ cur.2
    · rw [if_pos hs]
      have hcv' : (cur.1, max cur.2 e).1 < (cur.1, max cur.2 e).2 :=
        lt_of_lt_of_le hcv (le_max_left _ _)
      have ih := mergeIntervalsGo_structure rest (cur.1, max cur.2 e) hcv'
        (fun iv hiv => hv iv (List.mem_cons_of_mem _ hiv))
        (fun iv hiv => hlb iv (List.mem_cons_of_mem _ hiv))
        (List.pairwise_cons.mp hsorted).2
      exact ih
    · rw [if_neg hs]
      push_neg at hs
      have ih := mergeIntervalsGo_structure rest (s, e)
        (hv (s, e) (List.mem_cons_self _ _))
        (fun iv hiv => hv iv (List.mem_cons_of_mem _ hiv))
        hlbrest (List.pairwise_cons.mp hsorted).2
      refine ⟨List.pairwise_cons.mpr ⟨?_, ih.1⟩, ?_, ?_⟩
      · intro iv hiv
        exact lt_of_lt_of_le hs (ih.2.2 iv hiv)
      · intro iv hiv
        rcases List.mem_cons.mp hiv with rfl | h
        · exact hcv
        · exact ih.2.1 iv h
      · intro iv hiv
        rcases List.mem_cons.mp hiv with rfl | h
        · exact le_refl _
        · exact le_trans hcur1s (ih.2.2 iv h)
  termination_by rest => rest.length

/-- Combined specification of `merge_intervals` on non-degenerate inputs:
output intervals are separated by gaps (in particular sorted by start and
pairwise non-overlapping), non-degenerate, and cover exactly the same time
points as the input. -/
theorem merge_intervals_spec (l : List TimeInterval)
    (hv : ∀ iv ∈ l, iv.1 < iv.2) :
    (merge_intervals l).Pairwise (fun a b => a.2 < b.1) ∧
    (∀ iv ∈ merge_intervals l, iv.1 < iv.2) ∧
    (∀ x, coveredBy x (merge_intervals l) ↔ coveredBy x l) := by
  haveI : IsTotal TimeInterval (fun a b => a.1 ≤ b.1) := ⟨fun a b => le_total a.1 b.1⟩
  haveI : IsTrans TimeInterval (fun a b => a.1 ≤ b.1) := ⟨fun _ _ _ h h' => le_trans h h'⟩
  have hperm := List.perm_insertionSort (fun a b : TimeInterval => a.1 ≤ b.1) l
  have hsorted := List.sorted_insertionSort (fun a b : TimeInterval => a.1 ≤ b.1) l
  rcases hs : l.insertionSort (fun a b => a.1 ≤ b.1) with _ | ⟨i, rest⟩
  · have hml : merge_intervals l = [] := by unfold merge_intervals; rw [hs]
    have hl : l = [] := by
      rw [hs] at hperm
      exact hperm.symm.eq_nil
    subst hl
    simp [hml, coveredBy]
  · have hml : merge_intervals l = mergeIntervalsGo i rest := by
      unfold merge_intervals; rw [hs]
    rw [hs] at hperm hsorted
    have hmem : ∀ iv ∈ i :: rest, iv ∈ l := fun iv hiv => hperm.mem_iff.mp hiv
    have hlb : ∀ iv ∈ rest, i.1 ≤ iv.1 := (List.pairwise_cons.mp hsorted).1
    have htail := (List.pairwise_cons.mp hsorted).2
    have hst := mergeIntervalsGo_structure rest i
      (hv i (hmem i (List.mem_cons_self _ _)))
      (fun iv hiv => hv iv (hmem iv (List.mem_cons_of_mem _ hiv)))
      hlb htail
    refine ⟨hml ▸ hst.1, hml ▸ hst.2.1, fun x => ?_⟩
    rw [hml, mergeIntervalsGo_covered rest i hlb htail x]
    exact coveredBy_perm hperm x

theorem lookup_normalizeDowntime (downtime : List (String × List TimeInterval))
    (m : String) :
    (normalizeDowntime downtime).lookup m = (downtime.lookup m).map merge_intervals := by
  induction downtime with
  | nil => rfl
  | cons p t ih =>
    rcases p with ⟨k, v⟩
    show List.lookup m ((k, merge_intervals v) :: normalizeDowntime t) = _
    rcases hbeq : (m == k) with _ | _
    · simp only [List.lookup, hbeq]
      exact ih
    · simp only [List.lookup, hbeq]
      rfl

/-- Every `some` result of the machine-choice fold names a machine of the
scanned list (or of the accumulator), placed at its downtime-adjusted earliest
start with the task's duration. -/
theorem chooseMachine_foldl_ok (avail : String → ℚ) (earliest dur : ℚ)
    (dt : List (String × List TimeInterval)) (machines : List String) :
    ∀ (l : List String) (acc : Option (String × ℚ × ℚ)),
      (∀ x ∈ l, x ∈ machines) →
      (∀ m s e, acc = some (m, s, e) → m ∈ machines ∧
        s = next_slot_avoiding_downtime (max (avail m) earliest) dur m dt ∧
        e = s + dur) →
      ∀ m s e, l.foldl (chooseStep avail earliest dur dt) acc = some (m, s, e) →
        m ∈ machines ∧
        s = next_slot_avoiding_downtime (max (avail m) earliest) dur m dt ∧
        e = s + dur
  | [], acc, _, hacc, m, s, e, h => hacc m s e h
  | mm :: l, acc, hsub, hacc, m, s, e, h => by
    rw [List.foldl_cons] at h
    refine chooseMachine_foldl_ok avail earliest dur dt machines l _
      (fun x hx => hsub x (List.mem_cons_of_mem _ hx)) ?_ m s e h
    intro m' s' e' hstep
    unfold chooseStep at hstep
    rcases acc with _ | ⟨bm, bs, be⟩
    · simp only [Option.some.injEq, Prod.mk.injEq] at hstep
      obtain ⟨rfl, rfl, rfl⟩ := hstep
      exact ⟨hsub mm (List.mem_cons_self _ _), rfl, rfl⟩
    · simp only at hstep
      split_ifs at hstep <;>
        simp only [Option.some.injEq, Prod.mk.injEq] at hstep
      · obtain ⟨rfl, rfl, rfl⟩ := hstep
        exact ⟨hsub mm (List.mem_cons_self _ _), rfl, rfl⟩
      · obtain ⟨rfl, rfl, rfl⟩ := hstep
        exact hacc bm bs be rfl

theorem chooseStep_ne_none (avail : String → ℚ) (earliest dur : ℚ)
    (dt : List (String × List TimeInterval)) (acc : Option (String × ℚ × ℚ))
    (m : String) : chooseStep avail earliest dur dt acc m ≠ none := by
  unfold chooseStep
  rcases acc with _ | ⟨bm, bs, be⟩
  · simp
  · simp only
    split_ifs <;> simp

theorem chooseMachine_foldl_ne_none (avail : String → ℚ) (earliest dur : ℚ)
    (dt : List (String × List TimeInterval)) :
    ∀ (l : List String) (acc : Option (String × ℚ × ℚ)),
      acc ≠ none ∨ l ≠ [] → l.foldl (chooseStep avail earliest dur dt) acc ≠ none
  | [], acc, h => by
    rcases h with h | h
    · exact h
    · exact absurd rfl h
  | mm :: l, acc, _ => by
    rw [List.foldl_cons]
    exact chooseMachine_foldl_ne_none avail earliest dur dt l _
      (.inl (chooseStep_ne_none avail earliest dur dt acc mm))

/-- `chooseMachine` on a non-empty machine list always succeeds, and its
result is a machine of the list placed at its adjusted earliest start. -/
theorem chooseMachine_ok {machines : List String} {avail : String → ℚ}
    {earliest dur : ℚ} {dt : List (String × List TimeInterval)}
    {m : String} {s e : ℚ}
    (h : chooseMachine machines avail earliest dur dt = some (m, s, e)) :
    m ∈ machines ∧
    s = next_slot_avoiding_downtime (max (avail m) earliest) dur m dt ∧
    e = s + dur :=
  chooseMachine_foldl_ok avail earliest dur dt machines machines none
    (fun _ hx => hx) (fun _ _ _ h' => by cases h') m s e h

theorem chooseMachine_ne_none {machines : List String} (hm : machines ≠ [])
    (avail : String → ℚ) (earliest dur : ℚ)
    (dt : List (String × List TimeInterval)) :
    chooseMachine machines avail earliest dur dt ≠ none :=
  chooseMachine_foldl_ne_none avail earliest dur dt machines none (.inr hm)

theorem computeEarliest_ge (gstart lag : ℚ) (prevEnd : String × Nat → Option ℚ)
    (o : WorkOrder) : gstart ≤ computeEarliest gstart lag prevEnd o := by
  unfold computeEarliest
  split_ifs
  · rcases o.op_index with _ | k
    · exact le_refl _
    · simp only
      split_ifs
      · rcases prevEnd (o.id, k - 1) with _ | e
        · exact le_refl _
        · exact le_max_left _ _
      · exact le_refl _
  · exact le_refl _

/-- Definitional unfolding of one step of the scheduling loop. -/
theorem scheduleAux_cons (machines : List String) (lag : ℚ)
    (dt : List (String × List TimeInterval)) (gstart : ℚ) (o : WorkOrder)
    (rest : List WorkOrder) (avail : String → ℚ)
    (prevEnd : String × Nat → Option ℚ) :
    scheduleAux machines lag dt gstart (o :: rest) avail prevEnd =
      match chooseMachine machines avail (computeEarliest gstart lag prevEnd o)
          o.duration_hours dt with
      | none => .error "IndexError: list index out of range"
      | some (m, s, e) =>
        match scheduleAux machines lag dt gstart rest
            (fun x => if x = m then e else avail x)
            (if o.product = "D" ∧ o.op_index.isSome then
              fun k => if k = (o.id, o.op_index.getD 0) then some e else prevEnd k
            else prevEnd) with
        | .ok p =>
          .ok (⟨o.id, o.product, opLabel o, m, s, e, o.duration_hours, o.due_date⟩ :: p)
        | .error msg => .error msg := rfl

/-- With at least one machine, the scheduling loop never fails. -/
theorem scheduleAux_ok (machines : List String) (lag : ℚ)
    (dt : List (String × List TimeInterval)) (gstart : ℚ) (hm : machines ≠ []) :
    ∀ (orders : List WorkOrder) (avail : String → ℚ)
      (prevEnd : String × Nat → Option ℚ),
      ∃ p, scheduleAux machines lag dt gstart orders avail prevEnd = .ok p
  | [], _, _ => ⟨[], rfl⟩
  | o :: rest, avail, prevEnd => by
    rw [scheduleAux_cons]
    rcases hc : chooseMachine machines avail (computeEarliest gstart lag prevEnd o)
        o.duration_hours dt with _ | ⟨m, s, e⟩
    · exact absurd hc (chooseMachine_ne_none hm avail _ _ dt)
    · dsimp only
      obtain ⟨q, hq⟩ := scheduleAux_ok machines lag dt gstart hm rest
        (fun x => if x = m then e else avail x)
        (if o.product = "D" ∧ o.op_index.isSome then
          fun k => if k = (o.id, o.op_index.getD 0) then some e else prevEnd k
        else prevEnd)
      exact ⟨_, by rw [hq]⟩

/-- Local invariants of every emitted plan item: it stems from one of the
orders, runs on a machine of the list, ends exactly `duration` after it
starts, starts no earlier than the global start, and its window overlaps no
downtime block of its machine. -/
theorem scheduleAux_items (machines : List String) (lag : ℚ)
    (dt : List (String × List TimeInterval)) (gstart : ℚ) :
    ∀ (orders : List WorkOrder) (avail : String → ℚ)
      (prevEnd : String × Nat → Option ℚ) (p : List PlanItem),
      scheduleAux machines lag dt gstart orders avail prevEnd = .ok p →
      ∀ it ∈ p, ∃ o ∈ orders,
        it.id = o.id ∧ it.product = o.product ∧ it.operation = opLabel o ∧
        it.duration_hours = o.duration_hours ∧ it.due_date = o.due_date ∧
        it.machine ∈ machines ∧ it.stop = it.start + o.duration_hours ∧
        gstart ≤ it.start ∧
        (∀ b ∈ (dt.lookup it.machine).getD [],
          overlaps (it.start, it.stop) b = false)
  | [], _, _, p, h, it, hit => by
    cases h
    exact absurd hit (List.not_mem_nil it)
  | o :: rest, avail, prevEnd, p, h, it, hit => by
    rw [scheduleAux_cons] at h
    revert h
    rcases hc : chooseMachine machines avail (computeEarliest gstart lag prevEnd o)
        o.duration_hours dt with _ | ⟨m, s, e⟩ <;> intro h
    · exact Except.noConfusion h
    · replace h : (match scheduleAux machines lag dt gstart rest
            (fun x => if x = m then e else avail x)
            (if o.product = "D" ∧ o.op_index.isSome then
              fun k => if k = (o.id, o.op_index.getD 0) then some e else prevEnd k
            else prevEnd) with
        | .ok q =>
          Except.ok (⟨o.id, o.product, opLabel o, m, s, e, o.duration_hours, o.due_date⟩ :: q)
        | .error msg => Except.error msg) = Except.ok p := h
      revert h
      rcases hrec : scheduleAux machines lag dt gstart rest
          (fun x => if x = m then e else avail x)
          (if o.product = "D" ∧ o.op_index.isSome then
            fun k => if k = (o.id, o.op_index.getD 0) then some e else prevEnd k
          else prevEnd) with msg | q <;> intro h
      · exact Except.noConfusion h
      · have h2 : Except.ok
            (⟨o.id, o.product, opLabel o, m, s, e, o.duration_hours, o.due_date⟩ :: q) =
            Except.ok p := h
        injection h2 with h2
        subst h2
        rcases List.mem_cons.mp hit with rfl | hitq
        · obtain ⟨hmem, hs, he⟩ := chooseMachine_ok hc
          have hspec := next_slot_spec (max (avail m)
            (computeEarliest gstart lag prevEnd o)) o.duration_hours m dt
          refine ⟨o, List.mem_cons_self _ _, rfl, rfl, rfl, rfl, rfl, hmem, he, ?_, ?_⟩
          · rw [hs]
            exact le_trans (computeEarliest_ge gstart lag prevEnd o)
              (le_trans (le_max_right _ _) hspec.1)
          · intro b hb
            rw [hs, he, hs]
            exact hspec.2.1 b hb
        · obtain ⟨o', ho', hrest⟩ := scheduleAux_items machines lag dt gstart rest _ _ q
            hrec it hitq
          exact ⟨o', List.mem_cons_of_mem _ ho', hrest⟩

/-- The plan has one item per order, in order, copying the identity fields. -/
theorem scheduleAux_get (machines : List String) (lag : ℚ)
    (dt : List (String × List TimeInterval)) (gstart : ℚ) :
    ∀ (orders : List WorkOrder) (avail : String → ℚ)
      (prevEnd : String × Nat → Option ℚ) (p : List PlanItem),
      scheduleAux machines lag dt gstart orders avail prevEnd = .ok p →
      p.length = orders.length ∧
      ∀ i (hi : i < orders.length) (hip : i < p.length),
        (p.get ⟨i, hip⟩).id = (orders.get ⟨i, hi⟩).id ∧
        (p.get ⟨i, hip⟩).product = (orders.get ⟨i, hi⟩).product ∧
        (p.get ⟨i, hip⟩).operation = opLabel (orders.get ⟨i, hi⟩) ∧
        (p.get ⟨i, hip⟩).duration_hours = (orders.get ⟨i, hi⟩).duration_hours ∧
        (p.get ⟨i, hip⟩).due_date = (orders.get ⟨i, hi⟩).due_date
  | [], _, _, p, h => by
    cases h
    exact ⟨rfl, fun i hi => absurd hi (Nat.not_lt_zero i)⟩
  | o :: rest, avail, prevEnd, p, h => by
    rw [scheduleAux_cons] at h
    revert h
    rcases hc : chooseMachine machines avail (computeEarliest gstart lag prevEnd o)
        o.duration_hours dt with _ | ⟨m, s, e⟩ <;> intro h
    · exact Except.noConfusion h
    · replace h : (match scheduleAux machines lag dt gstart rest
            (fun x => if x = m then e else avail x)
            (if o.product = "D" ∧ o.op_index.isSome then
              fun k => if k = (o.id, o.op_index.getD 0) then some e else prevEnd k
            else prevEnd) with
        | .ok q =>
          Except.ok (⟨o.id, o.product, opLabel o, m, s, e, o.duration_hours, o.due_date⟩ :: q)
        | .error msg => Except.error msg) = Except.ok p := h
      revert h
      rcases hrec : scheduleAux machines lag dt gstart rest
          (fun x => if x = m then e else avail x)
          (if o.product = "D" ∧ o.op_index.isSome then
            fun k => if k = (o.id, o.op_index.getD 0) then some e else prevEnd k
          else prevEnd) with msg | q <;> intro h
      · exact Except.noConfusion h
      · have h2 : Except.ok
            (⟨o.id, o.product, opLabel o, m, s, e, o.duration_hours, o.due_date⟩ :: q) =
            Except.ok p := h
        injection h2 with h2
        subst h2
        obtain ⟨hlen, hget⟩ := scheduleAux_get machines lag dt gstart rest _ _ q hrec
        refine ⟨by simpa using hlen, ?_⟩
        intro i hi hip
        cases i with
        | zero => exact ⟨rfl, rfl, rfl, rfl, rfl⟩
        | succ i' =>
          exact hget i' (by simpa using hi) (by simpa using hip)

/-- If two orders share the group flag and the work-order id but the first has
the larger op index, its composite key is strictly greater, whatever the
rule. -/
theorem cmpKey_gt_of_op_index_lt (rule : String) (a b : WorkOrder)
    (hg : (a.product != "D") = (b.product != "D")) (hid : a.id = b.id)
    (hlt : b.op_index.getD 0 < a.op_index.getD 0) :
    cmpKey (schedKey rule a) (schedKey rule b) = .gt := by
  unfold cmpKey schedKey
  dsimp only
  rw [show cmpLin (a.product != "D") (b.product != "D") = .eq from
      (cmpLin_eq_eq_iff _ _).mpr hg,
    show cmpStr a.id b.id = .eq from (lawfulCmp_cmpStr.eq_iff _ _).mpr hid,
    show cmpLin (a.op_index.getD 0) (b.op_index.getD 0) = .gt from
      (cmpLin_eq_gt_iff _ _).mpr hlt]
  rfl

/-- `earliest` when the previous op's end is recorded: the global start raised
to that end plus the lag (scheduler.py line 156). -/
theorem computeEarliest_of_some {gstart lag : ℚ}
    {prevEnd : String × Nat → Option ℚ} {o : WorkOrder} {k : Nat} {ev : ℚ}
    (hD : o.product = "D") (hop : o.op_index = some k) (hk : 1 < k)
    (hpe : prevEnd (o.id, k - 1) = some ev) :
    computeEarliest gstart lag prevEnd o = max gstart (ev + lag) := by
  simp [computeEarliest, hD, hop, hpe, hk]

/-- Precedence invariant of the scheduling loop: if every remaining `D` op
with index `k ≥ 2` has its predecessor either recorded in `prevEnd` or
strictly earlier in the remaining list, then in the produced plan every such
op starts at least `lag` after the end of a scheduled predecessor (left case)
or after the recorded end (right case). -/
theorem scheduleAux_prec (machines : List String) (lag : ℚ)
    (dt : List (String × List TimeInterval)) (gstart : ℚ) :
    ∀ (orders : List WorkOrder) (avail : String → ℚ)
      (prevEnd : String × Nat → Option ℚ) (p : List PlanItem),
      scheduleAux machines lag dt gstart orders avail prevEnd = .ok p →
      (∀ i (hi : i < orders.length) (k : Nat),
        (orders.get ⟨i, hi⟩).product = "D" →
        (orders.get ⟨i, hi⟩).op_index = some k → 2 ≤ k →
        (prevEnd ((orders.get ⟨i, hi⟩).id, k - 1)).isSome = true ∨
          ∃ j, ∃ (hj : j < orders.length), j < i ∧
            (orders.get ⟨j, hj⟩).product = "D" ∧
            (orders.get ⟨j, hj⟩).id = (orders.get ⟨i, hi⟩).id ∧
            (orders.get ⟨j, hj⟩).op_index = some (k - 1)) →
      ∀ i (hi : i < orders.length) (hip : i < p.length) (k : Nat),
        (orders.get ⟨i, hi⟩).product = "D" →
        (orders.get ⟨i, hi⟩).op_index = some k → 2 ≤ k →
        (∃ j, ∃ (hj : j < orders.length), ∃ (hjp : j < p.length), j < i ∧
          (orders.get ⟨j, hj⟩).product = "D" ∧
          (orders.get ⟨j, hj⟩).id = (orders.get ⟨i, hi⟩).id ∧
          (orders.get ⟨j, hj⟩).op_index = some (k - 1) ∧
          (p.get ⟨j, hjp⟩).stop + lag ≤ (p.get ⟨i, hip⟩).start) ∨
        (∃ e, prevEnd ((orders.get ⟨i, hi⟩).id, k - 1) = some e ∧
          e + lag ≤ (p.get ⟨i, hip⟩).start)
  | [], _, _, _, _, _, i, hi, _, _ => absurd hi (Nat.not_lt_zero i)
  | o :: rest, avail, prevEnd, p, h, HH, i, hi, hip, k => by
    rw [scheduleAux_cons] at h
    revert h
    rcases hc : chooseMachine machines avail (computeEarliest gstart lag prevEnd o)
        o.duration_hours dt with _ | ⟨m, s, e⟩ <;> intro h
    · exact Except.noConfusion h
    · replace h : (match scheduleAux machines lag dt gstart rest
            (fun x => if x = m then e else avail x)
            (if o.product = "D" ∧ o.op_index.isSome then
              fun k => if k = (o.id, o.op_index.getD 0) then some e else prevEnd k
            else prevEnd) with
        | .ok q =>
          Except.ok (⟨o.id, o.product, opLabel o, m, s, e, o.duration_hours, o.due_date⟩ :: q)
        | .error msg => Except.error msg) = Except.ok p := h
      revert h
      rcases hrec : scheduleAux machines lag dt gstart rest
          (fun x => if x = m then e else avail x)
          (if o.product = "D" ∧ o.op_index.isSome then
            fun k => if k = (o.id, o.op_index.getD 0) then some e else prevEnd k
          else prevEnd) with msg | q <;> intro h
      · exact Except.noConfusion h
      · have h2 : Except.ok
            (⟨o.id, o.product, opLabel o, m, s, e, o.duration_hours, o.due_date⟩ :: q) =
            Except.ok p := h
        injection h2 with h2
        subst h2
        intro hprod hopk h2k
        obtain ⟨hmem, hs, he⟩ := chooseMachine_ok hc
        cases i with
        | zero =>
          have hprodo : o.product = "D" := hprod
          have hopko : o.op_index = some k := hopk
          rcases HH 0 hi k hprod hopk h2k with hsome | ⟨j, hj, hj0, _⟩
          · obtain ⟨ev, hev⟩ := Option.isSome_iff_exists.mp hsome
            have hevo : prevEnd (o.id, k - 1) = some ev := hev
            refine .inr ⟨ev, hev, ?_⟩
            have hce := @computeEarliest_of_some gstart lag _ _ _ _
              hprodo hopko (by omega) hevo
            have hspec := next_slot_spec (max (avail m)
              (computeEarliest gstart lag prevEnd o)) o.duration_hours m dt
            show ev + lag ≤ s
            rw [hs]
            refine le_trans ?_ (le_trans (le_max_right _ _) hspec.1)
            rw [hce]
            exact le_max_right _ _
          · exact absurd hj0 (Nat.not_lt_zero j)
        | succ i' =>
          have HH' : ∀ i2 (hi2 : i2 < rest.length) (k2 : Nat),
              (rest.get ⟨i2, hi2⟩).product = "D" →
              (rest.get ⟨i2, hi2⟩).op_index = some k2 → 2 ≤ k2 →
              ((if o.product = "D" ∧ o.op_index.isSome then
                  fun kk => if kk = (o.id, o.op_index.getD 0) then some e else prevEnd kk
                else prevEnd) ((rest.get ⟨i2, hi2⟩).id, k2 - 1)).isSome = true ∨
                ∃ j, ∃ (hj : j < rest.length), j < i2 ∧
                  (rest.get ⟨j, hj⟩).product = "D" ∧
                  (rest.get ⟨j, hj⟩).id = (rest.get ⟨i2, hi2⟩).id ∧
                  (rest.get ⟨j, hj⟩).op_index = some (k2 - 1) := by
            intro i2 hi2 k2 hprod2 hop2 h2k2
            rcases HH (i2 + 1) (by simpa using hi2) k2 hprod2 hop2 h2k2 with hsome |
              ⟨j, hj, hji, hjD, hjid, hjop⟩
            · refine .inl ?_
              split_ifs with hcond
              · show (if ((rest.get ⟨i2, hi2⟩).id, k2 - 1) = (o.id, o.op_index.getD 0)
                    then some e
                    else prevEnd ((rest.get ⟨i2, hi2⟩).id, k2 - 1)).isSome = true
                split_ifs
                · rfl
                · exact hsome
              · exact hsome
            · cases j with
              | zero =>
                have hjD0 : o.product = "D" := hjD
                have hjid0 : o.id = (rest.get ⟨i2, hi2⟩).id := hjid
                have hjop0 : o.op_index = some (k2 - 1) := hjop
                refine .inl ?_
                have hcond : o.product = "D" ∧ o.op_index.isSome :=
                  ⟨hjD0, by rw [hjop0]; rfl⟩
                rw [if_pos hcond]
                show (if ((rest.get ⟨i2, hi2⟩).id, k2 - 1) = (o.id, o.op_index.getD 0)
                    then some e
                    else prevEnd ((rest.get ⟨i2, hi2⟩).id, k2 - 1)).isSome = true
                rw [if_pos (show ((rest.get ⟨i2, hi2⟩).id, k2 - 1) =
                  (o.id, o.op_index.getD 0) by rw [hjid0, hjop0]; rfl)]
                rfl
              | succ j' =>
                exact .inr ⟨j', by simpa using hj, by omega, hjD, hjid, hjop⟩
          have IH := scheduleAux_prec machines lag dt gstart rest _ _ q hrec HH'
            i' (by simpa using hi) (by simpa using hip) k hprod hopk h2k
          rcases IH with ⟨j', hj', hjp', hji', hD', hid', hop', hineq'⟩ |
            ⟨e', hpe', hineq'⟩
          · exact .inl ⟨j' + 1, by simpa using hj', by simpa using hjp', by omega,
              hD', hid', hop', hineq'⟩
          · revert hpe'
            split_ifs with hcond
            · intro hpe'
              replace hpe' : (if ((rest.get ⟨i', by simpa using hi⟩).id, k - 1) =
                  (o.id, o.op_index.getD 0) then some e
                  else prevEnd ((rest.get ⟨i', by simpa using hi⟩).id, k - 1)) =
                  some e' := hpe'
              by_cases hkey : ((rest.get ⟨i', by simpa using hi⟩).id, k - 1) =
                  (o.id, o.op_index.getD 0)
              · rw [if_pos hkey] at hpe'
                injection hpe' with hpe'
                subst hpe'
                have hkid : (rest.get ⟨i', by simpa using hi⟩).id = o.id :=
                  congrArg Prod.fst hkey
                have hkidx : k - 1 = o.op_index.getD 0 := congrArg Prod.snd hkey
                obtain ⟨v, hv⟩ := Option.isSome_iff_exists.mp hcond.2
                refine .inl ⟨0, by omega, by omega, by omega, hcond.1, hkid.symm, ?_,
                  hineq'⟩
                rw [hv] at hkidx
                simp only [Option.getD_some] at hkidx
                show o.op_index = some (k - 1)
                rw [hkidx]
                exact hv
              · rw [if_neg hkey] at hpe'
                exact .inr ⟨e', hpe', hineq'⟩
            · intro hpe'
              exact .inr ⟨e', hpe', hineq'⟩

theorem lookup_mem {α β : Type*} [BEq α] [LawfulBEq α] :
    ∀ {l : List (α × β)} {a : α} {b : β}, l.lookup a = some b → (a, b) ∈ l
  | [], _, _, h => Option.noConfusion h
  | (k, v) :: t, a, b, h => by
    revert h
    show (match a == k with
      | true => some v
      | false => List.lookup a t) = some b → (a, b) ∈ (k, v) :: t
    rcases hk : (a == k) with _ | _ <;> intro h
    · exact List.mem_cons_of_mem _ (lookup_mem h)
    · injection h with h
      subst h
      obtain rfl := eq_of_beq hk
      exact List.mem_cons_self _ _

/-- The order list sorted by the composite key is `Pairwise`-sorted. -/
theorem orders_sorted_pairwise (rule : String) (orders : List WorkOrder) :
    (orders.insertionSort (fun a b => schedLe rule a b = true)).Pairwise
      (fun a b => schedLe rule a b = true) := by
  haveI : IsTotal WorkOrder (fun a b => schedLe rule a b = true) :=
    ⟨fun a b => schedLe_total rule a b⟩
  haveI : IsTrans WorkOrder (fun a b => schedLe rule a b = true) :=
    ⟨fun _ _ _ h h' => schedLe_trans rule h h'⟩
  exact List.sorted_insertionSort _ _

/-- In a list sorted by the scheduling key, a `D` op with index `k ≥ 2` whose
predecessor occurs anywhere in the list has a predecessor at a strictly
earlier position: the key orders ops of one `D` work order by op index. -/
theorem sorted_pred_position (rule : String) (l : List WorkOrder)
    (hsorted : l.Pairwise (fun a b => schedLe rule a b = true)) :
    ∀ i (hi : i < l.length) (k : Nat),
      (l.get ⟨i, hi⟩).product = "D" → (l.get ⟨i, hi⟩).op_index = some k → 2 ≤ k →
      (∃ o' ∈ l, o'.product = "D" ∧ o'.id = (l.get ⟨i, hi⟩).id ∧
        o'.op_index = some (k - 1)) →
      ∃ j, ∃ (hj : j < l.length), j < i ∧ (l.get ⟨j, hj⟩).product = "D" ∧
        (l.get ⟨j, hj⟩).id = (l.get ⟨i, hi⟩).id ∧
        (l.get ⟨j, hj⟩).op_index = some (k - 1) := by
  rintro i hi k hD hop hk ⟨o', ho'mem, ho'D, ho'id, ho'op⟩
  obtain ⟨⟨j, hj⟩, hjget⟩ := List.mem_iff_get.mp ho'mem
  rcases lt_trichotomy j i with hji | hji | hji
  · exact ⟨j, hj, hji, by rw [hjget]; exact ho'D, by rw [hjget]; exact ho'id,
      by rw [hjget]; exact ho'op⟩
  · subst hji
    have hsame : l.get ⟨j, hj⟩ = l.get ⟨j, hi⟩ := rfl
    rw [hsame] at hjget
    rw [hjget] at hop
    rw [ho'op] at hop
    injection hop with hop
    omega
  · exfalso
    have hle := List.pairwise_iff_get.mp hsorted ⟨i, hi⟩ ⟨j, hj⟩ hji
    have hgt : cmpKey (schedKey rule (l.get ⟨i, hi⟩)) (schedKey rule (l.get ⟨j, hj⟩)) =
        .gt := by
      refine cmpKey_gt_of_op_index_lt rule _ _ ?_ ?_ ?_
      · rw [hD, hjget, ho'D]
      · rw [hjget, ho'id]
      · rw [hop, hjget, ho'op]
        simp only [Option.getD_some]
        omega
    unfold schedLe at hle
    simp only [decide_eq_true_iff] at hle
    exact hle hgt

/-! ## Claim theorems -/

/-- **C1**: for every well-formed input (non-empty machine list, durations
> 0, downtime intervals with start < end), `schedule_orders` succeeds and
every `ScheduledTask` of the plan satisfies `end = start + duration`,
`start ≥` the global schedule start, and its half-open window `[start, end)`
does not intersect any normalized downtime interval of its assigned
machine. -/
theorem C1_plan_invariants (orders : List WorkOrder) (machines : List String)
    (gstart : ℚ) (rule : String) (lag : ℚ)
    (downtime : List (String × List TimeInterval))
    (hm : machines ≠ []) (hdur : ∀ o ∈ orders, 0 < o.duration_hours)
    (hdt : ∀ pr ∈ downtime, ∀ iv ∈ pr.2, iv.1 < iv.2) :
    ∃ plan, schedule_orders orders machines gstart rule lag downtime = .ok plan ∧
      ∀ it ∈ plan,
        it.stop = it.start + it.duration_hours ∧
        gstart ≤ it.start ∧
        ∀ iv ∈ mergedBlocksFor downtime it.machine,
          ¬ windowMeets it.start it.stop iv := by
  obtain ⟨plan, hplan⟩ := scheduleAux_ok machines lag (normalizeDowntime downtime)
    gstart hm (orders.insertionSort (fun a b => schedLe rule a b = true))
    (fun _ => gstart) (fun _ => none)
  refine ⟨plan, hplan, ?_⟩
  intro it hit
  obtain ⟨o, homem, hid, hprod, hoper, hdur_eq, hdue, hmach, hstop, hge, hnov⟩ :=
    scheduleAux_items machines lag (normalizeDowntime downtime) gstart _ _ _ plan
      hplan it hit
  have hosrc : o ∈ orders :=
    (List.perm_insertionSort (fun a b => schedLe rule a b = true) orders).mem_iff.mp homem
  have hdpos : 0 < o.duration_hours := hdur o hosrc
  have hline : it.start < it.stop := by
    rw [hstop]
    linarith
  refine ⟨by rw [hstop, hdur_eq], hge, ?_⟩
  intro iv hivmem
  have hivval : iv.1 < iv.2 := by
    unfold mergedBlocksFor at hivmem
    rw [lookup_normalizeDowntime] at hivmem
    rcases hlk : downtime.lookup it.machine with _ | raw
    · rw [hlk] at hivmem
      exact absurd hivmem (List.not_mem_nil iv)
    · rw [hlk] at hivmem
      simp only [Option.map_some', Option.getD_some] at hivmem
      have hraw : ∀ x ∈ raw, x.1 < x.2 := hdt (it.machine, raw) (lookup_mem hlk)
      exact (merge_intervals_spec raw hraw).2.1 iv hivmem
  intro hmeets
  have hov := hnov iv hivmem
  rw [(overlaps_eq_windowMeets hline hivval).mpr hmeets] at hov
  exact Bool.noConfusion hov

/-- **C1 witness**: a concrete instantiation — machine `M1` with downtime
`[0, 3)`, one 2-hour order — produces the plan with the task at `[3, 5)`. -/
theorem C1_plan_invariants_witness :
    ∃ plan, schedule_orders [⟨"WO1", "A", 2, none, none⟩] ["M1"] 0 "LPT" 0
        [("M1", [(0, 3)])] = .ok plan ∧
      ∀ it ∈ plan,
        it.stop = it.start + it.duration_hours ∧
        (0:ℚ) ≤ it.start ∧
        ∀ iv ∈ mergedBlocksFor [("M1", [(0, 3)])] it.machine,
          ¬ windowMeets it.start it.stop iv :=
  C1_plan_invariants [⟨"WO1", "A", 2, none, none⟩] ["M1"] 0 "LPT" 0
    [("M1", [(0, 3)])] (by decide) (by decide) (by decide)

/-- **C4 amended**: for every candidate start, every duration **> 0** (the
claim said `≥ 0`; see `C4_counterexample`), and every list of non-degenerate
downtime intervals for a machine, `next_slot_avoiding_downtime` returns the
smallest timestamp `t ≥` the candidate such that `[t, t + duration)` meets
none of the machine's intervals; and a 2-hour task with candidate start `T0`
against the single window `[T0, T0 + 3)` is placed at `T0 + 3` (its end is
then `T0 + 5`). -/
theorem C4_next_slot_least (start dur : ℚ) (machine : String)
    (dt : List (String × List TimeInterval)) (hdur : 0 < dur)
    (hval : ∀ iv ∈ (dt.lookup machine).getD [], iv.1 < iv.2) :
    (start ≤ next_slot_avoiding_downtime start dur machine dt ∧
     (∀ iv ∈ (dt.lookup machine).getD [],
       ¬ windowMeets (next_slot_avoiding_downtime start dur machine dt)
         (next_slot_avoiding_downtime start dur machine dt + dur) iv) ∧
     (∀ t, start ≤ t →
       (∀ iv ∈ (dt.lookup machine).getD [], ¬ windowMeets t (t + dur) iv) →
       next_slot_avoiding_downtime start dur machine dt ≤ t)) ∧
    (∀ T0 : ℚ, ∀ M : String,
      next_slot_avoiding_downtime T0 2 M [(M, [(T0, T0 + 3)])] = T0 + 3) := by
  have hspec := next_slot_spec start dur machine dt
  constructor
  · refine ⟨hspec.1, ?_, ?_⟩
    · intro iv hiv hmeets
      have hlt : next_slot_avoiding_downtime start dur machine dt <
          next_slot_avoiding_downtime start dur machine dt + dur := by linarith
      have := hspec.2.1 iv hiv
      rw [(overlaps_eq_windowMeets hlt (hval iv hiv)).mpr hmeets] at this
      exact Bool.noConfusion this
    · intro t hst hfeas
      refine hspec.2.2 t hst ?_
      intro iv hiv
      rcases hov : overlaps (t, t + dur) iv with _ | _
      · rfl
      · exfalso
        have hlt : t < t + dur := by linarith
        exact hfeas iv hiv ((overlaps_eq_windowMeets hlt (hval iv hiv)).mp hov)
  · intro T0 M
    have hlk : (List.lookup M [(M, [(T0, T0 + 3)])]).getD [] = [(T0, T0 + 3)] := by
      show (match M == M with
        | true => some [(T0, T0 + 3)]
        | false => (none : Option (List TimeInterval))).getD [] = [(T0, T0 + 3)]
      rw [beq_self_eq_true]
      rfl
    have hsp := next_slot_spec T0 2 M [(M, [(T0, T0 + 3)])]
    rw [hlk] at hsp
    have hfeas : ∀ iv ∈ [((T0 : ℚ), T0 + 3)],
        overlaps (T0 + 3, T0 + 3 + 2) iv = false := by
      intro iv hiv
      rcases List.mem_singleton.mp hiv with rfl
      rcases hov : overlaps (T0 + 3, T0 + 3 + 2) (T0, T0 + 3) with _ | _
      · rfl
      · have := (overlaps_iff _ _).mp hov
        simp only at this
        linarith [this.1]
    have hub := hsp.2.2 (T0 + 3) (by linarith) hfeas
    have hlb : T0 + 3 ≤ next_slot_avoiding_downtime T0 2 M [(M, [(T0, T0 + 3)])] := by
      by_contra hcon
      push_neg at hcon
      have hfeu := hsp.2.1 (T0, T0 + 3) (List.mem_singleton_self _)
      have hge := hsp.1
      have : overlaps (next_slot_avoiding_downtime T0 2 M [(M, [(T0, T0 + 3)])],
          next_slot_avoiding_downtime T0 2 M [(M, [(T0, T0 + 3)])] + 2)
          (T0, T0 + 3) = true := by
        rw [overlaps_iff]
        constructor
        · exact hcon
        · simp only
          linarith
      rw [this] at hfeu
      exact Bool.noConfusion hfeu
    linarith

unseal Rat.add Rat.mul Rat.sub Rat.inv in
/-- **C4 counterexample**: with duration `0`, the claim's "for every duration
≥ 0" fails: against the single window `[0, 10)` and candidate start `5`, the
code returns `10`, although the empty task window `[5, 5)` intersects nothing,
so the smallest feasible timestamp `≥ 5` is `5 < 10`. -/
theorem C4_counterexample :
    next_slot_avoiding_downtime 5 0 "M1" [("M1", [(0, 10)])] = 10 ∧
    ¬ windowMeets 5 (5 + 0) (0, 10) ∧ (5 : ℚ) ≤ 5 ∧ (5 : ℚ) < 10 := by
  refine ⟨by decide, ?_, le_refl _, by norm_num⟩
  unfold windowMeets
  simp

unseal Rat.add Rat.mul Rat.sub Rat.inv in
/-- **C4 witness**: the amended theorem applied at candidate `0`, duration
`2`, one window `[0, 3)`: the result is `≥ 0` and the scenario-C instance
places the task at `0 + 3`. -/
theorem C4_next_slot_least_witness :
    (0 : ℚ) ≤ next_slot_avoiding_downtime 0 2 "M1" [("M1", [(0, 3)])] ∧
    next_slot_avoiding_downtime 0 2 "M1" [("M1", [(0, 3)])] = 0 + 3 :=
  ⟨(C4_next_slot_least 0 2 "M1" [("M1", [(0, 3)])] (by norm_num) (by decide)).1.1,
   (C4_next_slot_least 0 2 "M1" [("M1", [(0, 3)])] (by norm_num) (by decide)).2 0 "M1"⟩

unseal Rat.add Rat.mul Rat.sub Rat.inv in
/-- **C5**: for every list of raw intervals with start < end,
`merge_intervals` returns a list sorted ascending by start whose intervals are
pairwise separated by gaps (hence pairwise non-overlapping and
non-degenerate), covering exactly the same time points as the input; and
merging `[8,10)` with `[9,11)` yields exactly `[8,11)`. -/
theorem C5_merge_intervals (l : List TimeInterval)
    (hv : ∀ iv ∈ l, iv.1 < iv.2) :
    ((merge_intervals l).Pairwise (fun a b => a.1 ≤ b.1) ∧
     (merge_intervals l).Pairwise (fun a b => a.2 < b.1) ∧
     (merge_intervals l).Pairwise (fun a b => overlaps a b = false) ∧
     (∀ iv ∈ merge_intervals l, iv.1 < iv.2) ∧
     (∀ x, coveredBy x (merge_intervals l) ↔ coveredBy x l)) ∧
    merge_intervals [((8 : ℚ), (10 : ℚ)), (9, 11)] = [(8, 11)] := by
  obtain ⟨hgap, hval, hcov⟩ := merge_intervals_spec l hv
  refine ⟨⟨?_, hgap, ?_, hval, hcov⟩, ?_⟩
  · refine hgap.imp_of_mem ?_
    intro a b ha _ hab
    have := hval a ha
    linarith
  · refine hgap.imp ?_
    intro a b hab
    rcases hov : overlaps a b with _ | _
    · rfl
    · have := (overlaps_iff _ _).mp hov
      exfalso
      linarith [this.2]
  · decide

/-- **C5 witness**: the theorem applied to the concrete input
`[[8,10), [9,11)]`. -/
theorem C5_merge_intervals_witness :
    (merge_intervals [((8 : ℚ), (10 : ℚ)), (9, 11)]).Pairwise
      (fun a b => a.2 < b.1) ∧
    (∀ x, coveredBy x (merge_intervals [((8 : ℚ), (10 : ℚ)), (9, 11)]) ↔
      coveredBy x [((8 : ℚ), (10 : ℚ)), (9, 11)]) :=
  ⟨(C5_merge_intervals [((8 : ℚ), (10 : ℚ)), (9, 11)] (by decide)).1.2.1,
   (C5_merge_intervals [((8 : ℚ), (10 : ℚ)), (9, 11)] (by decide)).1.2.2.2.2⟩

/-- **C2**: in every plan produced by `schedule_orders` from orders in which
each product-`D` op of index `k ≥ 2` has a (unique) predecessor op of index
`k - 1` in the same work order, the scheduled start of op `k` is at least the
scheduled end of op `k - 1` plus the configured lag; moreover the sort
guarantee holds: the predecessor sits at a strictly earlier position of the
sorted order list (it is scheduled first, which is why the
unscheduled-predecessor fallback `pass` branch of scheduler.py line 154 is
dead), and it is the unique such position. -/
theorem C2_precedence (orders : List WorkOrder) (machines : List String)
    (gstart : ℚ) (rule : String) (lag : ℚ)
    (downtime : List (String × List TimeInterval)) (plan : List PlanItem)
    (hplan : schedule_orders orders machines gstart rule lag downtime = .ok plan)
    (hpred : ∀ o ∈ orders, o.product = "D" → ∀ k, o.op_index = some k → 2 ≤ k →
      ∃ o' ∈ orders, o'.product = "D" ∧ o'.id = o.id ∧ o'.op_index = some (k - 1))
    (hdist : orders.Pairwise (fun a b =>
      ¬(a.product = "D" ∧ b.product = "D" ∧ a.id = b.id ∧
        a.op_index = b.op_index))) :
    ∀ i (hi : i < (orders_sorted rule orders).length) (hip : i < plan.length)
      (k : Nat),
      ((orders_sorted rule orders).get ⟨i, hi⟩).product = "D" →
      ((orders_sorted rule orders).get ⟨i, hi⟩).op_index = some k → 2 ≤ k →
      ∃ j, ∃ (hj : j < (orders_sorted rule orders).length),
        ∃ (hjp : j < plan.length), j < i ∧
        ((orders_sorted rule orders).get ⟨j, hj⟩).product = "D" ∧
        ((orders_sorted rule orders).get ⟨j, hj⟩).id =
          ((orders_sorted rule orders).get ⟨i, hi⟩).id ∧
        ((orders_sorted rule orders).get ⟨j, hj⟩).op_index = some (k - 1) ∧
        (plan.get ⟨j, hjp⟩).stop + lag ≤ (plan.get ⟨i, hip⟩).start ∧
        (∀ j', ∀ (hj' : j' < (orders_sorted rule orders).length),
          ((orders_sorted rule orders).get ⟨j', hj'⟩).product = "D" →
          ((orders_sorted rule orders).get ⟨j', hj'⟩).id =
            ((orders_sorted rule orders).get ⟨i, hi⟩).id →
          ((orders_sorted rule orders).get ⟨j', hj'⟩).op_index = some (k - 1) →
          j' = j) := by
  intro i hi hip k hD hop hk
  have hperm : (orders_sorted rule orders).Perm orders :=
    List.perm_insertionSort (fun a b => schedLe rule a b = true) orders
  have hsorted : (orders_sorted rule orders).Pairwise
      (fun a b => schedLe rule a b = true) := orders_sorted_pairwise rule orders
  have H1 : ∀ i2 (hi2 : i2 < (orders_sorted rule orders).length) (k2 : Nat),
      ((orders_sorted rule orders).get ⟨i2, hi2⟩).product = "D" →
      ((orders_sorted rule orders).get ⟨i2, hi2⟩).op_index = some k2 → 2 ≤ k2 →
      (((fun _ => none) : String × Nat → Option ℚ)
        (((orders_sorted rule orders).get ⟨i2, hi2⟩).id, k2 - 1)).isSome = true ∨
        ∃ j, ∃ (hj : j < (orders_sorted rule orders).length), j < i2 ∧
          ((orders_sorted rule orders).get ⟨j, hj⟩).product = "D" ∧
          ((orders_sorted rule orders).get ⟨j, hj⟩).id =
            ((orders_sorted rule orders).get ⟨i2, hi2⟩).id ∧
          ((orders_sorted rule orders).get ⟨j, hj⟩).op_index = some (k2 - 1) := by
    intro i2 hi2 k2 hD2 hop2 hk2
    refine .inr ?_
    refine sorted_pred_position rule _ hsorted i2 hi2 k2 hD2 hop2 hk2 ?_
    have hmem : (orders_sorted rule orders).get ⟨i2, hi2⟩ ∈ orders :=
      hperm.mem_iff.mp (List.get_mem _ _ _)
    obtain ⟨o', ho'mem, ho'D, ho'id, ho'op⟩ :=
      hpred ((orders_sorted rule orders).get ⟨i2, hi2⟩) hmem hD2 k2 hop2 hk2
    exact ⟨o', hperm.mem_iff.mpr ho'mem, ho'D, ho'id, ho'op⟩
  have hmain := scheduleAux_prec machines lag (normalizeDowntime downtime) gstart
    (orders_sorted rule orders) (fun _ => gstart) (fun _ => none) plan hplan H1
    i hi hip k hD hop hk
  rcases hmain with ⟨j, hj, hjp, hji, hjD, hjid, hjop, hineq⟩ | ⟨e, he, _⟩
  · refine ⟨j, hj, hjp, hji, hjD, hjid, hjop, hineq, ?_⟩
    intro j' hj' hD' hid' hop'
    by_contra hne
    have hdist' : (orders_sorted rule orders).Pairwise (fun a b =>
        ¬(a.product = "D" ∧ b.product = "D" ∧ a.id = b.id ∧
          a.op_index = b.op_index)) := by
      refine (List.Perm.pairwise_iff ?_ hperm.symm).mp hdist
      intro a b hab hc
      exact hab ⟨hc.2.1, hc.1, hc.2.2.1.symm, hc.2.2.2.symm⟩
    rcases Nat.lt_or_ge j' j with hlt | hge
    · have := List.pairwise_iff_get.mp hdist' ⟨j', hj'⟩ ⟨j, hj⟩ hlt
      exact this ⟨hD', hjD, by rw [hid', hjid], by rw [hop', hjop]⟩
    · have hlt : j < j' := by omega
      have := List.pairwise_iff_get.mp hdist' ⟨j, hj⟩ ⟨j', hj'⟩ hlt
      exact this ⟨hjD, hD', by rw [hid', hjid], by rw [hop', hjop]⟩
  · exact Option.noConfusion he

unseal Rat.add Rat.mul Rat.sub Rat.inv in
/-- **C2 witness**: the single `D` work order with ops 1/2/3 on one machine
with lag 1, instantiating the theorem at op 2: op 1 sits strictly earlier in
the sorted list and `start₂ ≥ end₁ + lag` holds in the concrete plan. -/
theorem C2_precedence_witness :
    ∃ j, ∃ (hj : j < (orders_sorted "LPT"
        [⟨"WO1", "D", 1, some 1, none⟩, ⟨"WO1", "D", 3, some 2, none⟩,
         ⟨"WO1", "D", 2, some 3, none⟩]).length),
      ∃ (hjp : j < ([⟨"WO1", "D", "D1", "M1", 0, 1, 1, none⟩,
          ⟨"WO1", "D", "D2", "M1", 2, 5, 3, none⟩,
          ⟨"WO1", "D", "D3", "M1", 6, 8, 2, none⟩] : List PlanItem).length),
      j < 1 ∧
      ((orders_sorted "LPT"
        [⟨"WO1", "D", 1, some 1, none⟩, ⟨"WO1", "D", 3, some 2, none⟩,
         ⟨"WO1", "D", 2, some 3, none⟩]).get ⟨j, hj⟩).product = "D" ∧
      ((orders_sorted "LPT"
        [⟨"WO1", "D", 1, some 1, none⟩, ⟨"WO1", "D", 3, some 2, none⟩,
         ⟨"WO1", "D", 2, some 3, none⟩]).get ⟨j, hj⟩).id =
        ((orders_sorted "LPT"
        [⟨"WO1", "D", 1, some 1, none⟩, ⟨"WO1", "D", 3, some 2, none⟩,
         ⟨"WO1", "D", 2, some 3, none⟩]).get ⟨1, by decide⟩).id ∧
      ((orders_sorted "LPT"
        [⟨"WO1", "D", 1, some 1, none⟩, ⟨"WO1", "D", 3, some 2, none⟩,
         ⟨"WO1", "D", 2, some 3, none⟩]).get ⟨j, hj⟩).op_index = some (2 - 1) ∧
      (([⟨"WO1", "D", "D1", "M1", 0, 1, 1, none⟩,
          ⟨"WO1", "D", "D2", "M1", 2, 5, 3, none⟩,
          ⟨"WO1", "D", "D3", "M1", 6, 8, 2, none⟩] : List PlanItem).get
            ⟨j, hjp⟩).stop + 1 ≤
        (([⟨"WO1", "D", "D1", "M1", 0, 1, 1, none⟩,
          ⟨"WO1", "D", "D2", "M1", 2, 5, 3, none⟩,
          ⟨"WO1", "D", "D3", "M1", 6, 8, 2, none⟩] : List PlanItem).get
            ⟨1, by decide⟩).start ∧
      (∀ j', ∀ (hj' : j' < (orders_sorted "LPT"
          [⟨"WO1", "D", 1, some 1, none⟩, ⟨"WO1", "D", 3, some 2, none⟩,
           ⟨"WO1", "D", 2, some 3, none⟩]).length),
        ((orders_sorted "LPT"
          [⟨"WO1", "D", 1, some 1, none⟩, ⟨"WO1", "D", 3, some 2, none⟩,
           ⟨"WO1", "D", 2, some 3, none⟩]).get ⟨j', hj'⟩).product = "D" →
        ((orders_sorted "LPT"
          [⟨"WO1", "D", 1, some 1, none⟩, ⟨"WO1", "D", 3, some 2, none⟩,
           ⟨"WO1", "D", 2, some 3, none⟩]).get ⟨j', hj'⟩).id =
          ((orders_sorted "LPT"
          [⟨"WO1", "D", 1, some 1, none⟩, ⟨"WO1", "D", 3, some 2, none⟩,
           ⟨"WO1", "D", 2, some 3, none⟩]).get ⟨1, by decide⟩).id →
        ((orders_sorted "LPT"
          [⟨"WO1", "D", 1, some 1, none⟩, ⟨"WO1", "D", 3, some 2, none⟩,
           ⟨"WO1", "D", 2, some 3, none⟩]).get ⟨j', hj'⟩).op_index =
          some (2 - 1) → j' = j) :=
  C2_precedence
    [⟨"WO1", "D", 1, some 1, none⟩, ⟨"WO1", "D", 3, some 2, none⟩,
     ⟨"WO1", "D", 2, some 3, none⟩] ["M1"] 0 "LPT" 1 []
    [⟨"WO1", "D", "D1", "M1", 0, 1, 1, none⟩,
     ⟨"WO1", "D", "D2", "M1", 2, 5, 3, none⟩,
     ⟨"WO1", "D", "D3", "M1", 6, 8, 2, none⟩]
    (by decide) (by decide) (by decide) 1 (by decide) (by decide) 2
    (by decide) (by decide) (by decide)

/-- Orders that differ in the leading `(group, id, op index)` key triple are
compared the same way under every rule: the rule-dependent components are
never reached. -/
theorem cmpKey_rule_indep {a b : WorkOrder}
    (h : (a.product != "D", a.id, a.op_index.getD 0) ≠
      (b.product != "D", b.id, b.op_index.getD 0)) (r₁ r₂ : String) :
    cmpKey (schedKey r₁ a) (schedKey r₁ b) = cmpKey (schedKey r₂ a) (schedKey r₂ b) := by
  unfold cmpKey schedKey
  dsimp only
  rcases hg : cmpLin (a.product != "D") (b.product != "D") with _ | _ | _
  · rfl
  · simp only [lexComp]
    rcases hid : cmpStr a.id b.id with _ | _ | _
    · rfl
    · simp only [lexComp]
      rcases hidx : cmpLin (a.op_index.getD 0) (b.op_index.getD 0) with _ | _ | _
      · rfl
      · exfalso
        exact h (Prod.ext ((cmpLin_eq_eq_iff _ _).mp hg)
          (Prod.ext ((lawfulCmp_cmpStr.eq_iff _ _).mp hid)
            ((cmpLin_eq_eq_iff _ _).mp hidx)))
      · rfl
    · rfl
  · rfl

/-- Among orders with equal group flags, `schedLe` implies the Python string
order of the work-order ids. -/
theorem schedLe_id_le {rule : String} {a b : WorkOrder}
    (hg : (a.product != "D") = (b.product != "D"))
    (h : schedLe rule a b = true) : strLeP a.id b.id := by
  unfold schedLe at h
  simp only [decide_eq_true_iff] at h
  unfold strLeP
  intro hgt
  apply h
  unfold cmpKey schedKey
  dsimp only
  rw [(cmpLin_eq_eq_iff _ _).mpr hg]
  show lexComp .eq (lexComp (cmpStr a.id b.id) _) = .gt
  rw [hgt]
  rfl

unseal Rat.add Rat.mul Rat.sub Rat.inv in
/-- **C3**: (a) the priority-rule key is a final tie-break after
`(group, work-order id, op index)`: comparisons of orders that differ in that
triple do not depend on the rule; (b) the rule does reorder simple-product
operations among themselves on some input — two product-`A` operations
sharing the work-order id `WO1` with durations 2 and 5 swap places between
`LPT` (5-hour op first) and `WSPT` (2-hour op first); (c) product-`D` plan
items appear in ascending work-order id order under **every** rule, so the
relative order of distinct multi-operation work orders never depends on the
rule. -/
theorem C3_rule_tiebreak :
    (∀ a b : WorkOrder,
      (a.product != "D", a.id, a.op_index.getD 0) ≠
        (b.product != "D", b.id, b.op_index.getD 0) →
      ∀ r₁ r₂, schedLe r₁ a b = schedLe r₂ a b) ∧
    (∀ (orders : List WorkOrder) (machines : List String) (gstart : ℚ)
      (rule : String) (lag : ℚ) (downtime : List (String × List TimeInterval))
      (plan : List PlanItem),
      schedule_orders orders machines gstart rule lag downtime = .ok plan →
      ∀ i j (hi : i < plan.length) (hj : j < plan.length), i < j →
        (plan.get ⟨i, hi⟩).product = "D" → (plan.get ⟨j, hj⟩).product = "D" →
        strLeP (plan.get ⟨i, hi⟩).id (plan.get ⟨j, hj⟩).id) ∧
    (schedule_orders [⟨"WO1", "A", 2, none, none⟩, ⟨"WO1", "A", 5, none, none⟩]
        ["M1"] 0 "LPT" 0 [] =
      .ok [⟨"WO1", "A", "A", "M1", 0, 5, 5, none⟩,
           ⟨"WO1", "A", "A", "M1", 5, 7, 2, none⟩] ∧
     schedule_orders [⟨"WO1", "A", 2, none, none⟩, ⟨"WO1", "A", 5, none, none⟩]
        ["M1"] 0 "WSPT" 0 [] =
      .ok [⟨"WO1", "A", "A", "M1", 0, 2, 2, none⟩,
           ⟨"WO1", "A", "A", "M1", 2, 7, 5, none⟩]) := by
  refine ⟨?_, ?_, by decide, by decide⟩
  · intro a b h r₁ r₂
    unfold schedLe
    rw [cmpKey_rule_indep h r₁ r₂]
  · intro orders machines gstart rule lag downtime plan hplan i j hi hj hij hiD hjD
    obtain ⟨hlen, hget⟩ := scheduleAux_get machines lag (normalizeDowntime downtime)
      gstart (orders_sorted rule orders) _ _ plan hplan
    have hi' : i < (orders_sorted rule orders).length := by omega
    have hj' : j < (orders_sorted rule orders).length := by omega
    obtain ⟨hidi, hprodi, _, _, _⟩ := hget i hi' hi
    obtain ⟨hidj, hprodj, _, _, _⟩ := hget j hj' hj
    have hsorted := orders_sorted_pairwise rule orders
    have hle := List.pairwise_iff_get.mp hsorted ⟨i, hi'⟩ ⟨j, hj'⟩ hij
    have hg : (((orders_sorted rule orders).get ⟨i, hi'⟩).product != "D") =
        (((orders_sorted rule orders).get ⟨j, hj'⟩).product != "D") := by
      rw [← hprodi, ← hprodj, hiD, hjD]
    have := schedLe_id_le hg hle
    rw [hidi, hidj]
    exact this

unseal Rat.add Rat.mul Rat.sub Rat.inv in
/-- **C3 witness**: part (a) applied to two orders with different ids under
`LPT` vs `WSPT`, and part (c) applied to the concrete one-`D`-work-order plan
(items 0 and 1 are in ascending id order). -/
theorem C3_rule_tiebreak_witness :
    schedLe "LPT" ⟨"WO1", "A", 2, none, none⟩ ⟨"WO2", "A", 5, none, none⟩ =
      schedLe "WSPT" ⟨"WO1", "A", 2, none, none⟩ ⟨"WO2", "A", 5, none, none⟩ ∧
    strLeP (([⟨"WO1", "D", "D1", "M1", 0, 1, 1, none⟩,
        ⟨"WO1", "D", "D2", "M1", 2, 5, 3, none⟩,
        ⟨"WO1", "D", "D3", "M1", 6, 8, 2, none⟩] : List PlanItem).get
          ⟨0, by decide⟩).id
      (([⟨"WO1", "D", "D1", "M1", 0, 1, 1, none⟩,
        ⟨"WO1", "D", "D2", "M1", 2, 5, 3, none⟩,
        ⟨"WO1", "D", "D3", "M1", 6, 8, 2, none⟩] : List PlanItem).get
          ⟨1, by decide⟩).id :=
  ⟨C3_rule_tiebreak.1 ⟨"WO1", "A", 2, none, none⟩ ⟨"WO2", "A", 5, none, none⟩
      (by decide) "LPT" "WSPT",
   C3_rule_tiebreak.2.1
      [⟨"WO1", "D", 1, some 1, none⟩, ⟨"WO1", "D", 3, some 2, none⟩,
       ⟨"WO1", "D", 2, some 3, none⟩] ["M1"] 0 "LPT" 1 []
      [⟨"WO1", "D", "D1", "M1", 0, 1, 1, none⟩,
       ⟨"WO1", "D", "D2", "M1", 2, 5, 3, none⟩,
       ⟨"WO1", "D", "D3", "M1", 6, 8, 2, none⟩]
      (by decide)
      0 1 (by decide) (by decide) (by decide) (by decide) (by decide)⟩

/-- When the jitter is zero or due dates are disabled, one simple-product
generation loop neither reads nor advances the ambient random stream: its
run from any stream state equals the run from any other state, with the
stream position unchanged. -/
theorem genSimpleLoop_indep (p : String) (dur start : ℚ) (slack : Option ℚ)
    (jitter : ℚ) (rand rand' : Nat → ℚ) (h : jitter = 0 ∨ slack = none) :
    ∀ (n idx pos pos' : Nat),
      genSimpleLoop p dur start slack jitter rand n idx pos =
        ((genSimpleLoop p dur start slack jitter rand' n idx pos').1,
         (genSimpleLoop p dur start slack jitter rand' n idx pos').2.1, pos)
  | 0, idx, pos, pos' => rfl
  | n + 1, idx, pos, pos' => by
    have ih := genSimpleLoop_indep p dur start slack jitter rand rand' h n
      (idx + 1) pos pos'
    rcases slack with _ | sl
    · show ((⟨"WO" ++ toString idx, p, dur, none, none⟩ : WorkOrder) ::
          (genSimpleLoop p dur start none jitter rand n (idx + 1) pos).1,
         (genSimpleLoop p dur start none jitter rand n (idx + 1) pos).2.1,
         (genSimpleLoop p dur start none jitter rand n (idx + 1) pos).2.2) = _
      rw [ih]
      rfl
    · rcases h with hj0 | hsn
      · subst hj0
        show ((⟨"WO" ++ toString idx, p, dur, none,
            some (start + (dur + sl + 0))⟩ : WorkOrder) ::
            (genSimpleLoop p dur start (some sl) 0 rand n (idx + 1) pos).1,
          (genSimpleLoop p dur start (some sl) 0 rand n (idx + 1) pos).2.1,
          (genSimpleLoop p dur start (some sl) 0 rand n (idx + 1) pos).2.2) = _
        rw [ih]
        rfl
      · exact Option.noConfusion hsn

/-- **C6 amended**: generation followed by scheduling is reproducible exactly
when the jitter is inactive (zero jitter hours, or due dates disabled): then
the generator neither reads nor advances the ambient random stream, two runs
from any stream states produce the same orders, and scheduling them gives the
same plan.  With active jitter reproducibility fails (`C6_counterexample`):
the jitter is drawn from the ambient global generator, which is not an input
of `generate_orders_with_D`. -/
theorem C6_reproducible_without_jitter (counts : String → Nat)
    (durations_ABC : String → ℚ) (count_D : Nat) (lag_D_min_h start : ℚ)
    (slack : Option ℚ) (jitter : ℚ) (rand rand' : Nat → ℚ) (pos pos' : Nat)
    (machines : List String) (gstart : ℚ) (rule : String) (lag : ℚ)
    (downtime : List (String × List TimeInterval))
    (h : jitter = 0 ∨ slack = none) :
    (generate_orders_with_D counts durations_ABC count_D lag_D_min_h start
        slack jitter rand pos).1 =
      (generate_orders_with_D counts durations_ABC count_D lag_D_min_h start
        slack jitter rand' pos').1 ∧
    (generate_orders_with_D counts durations_ABC count_D lag_D_min_h start
        slack jitter rand pos).2 = pos ∧
    schedule_orders (generate_orders_with_D counts durations_ABC count_D
        lag_D_min_h start slack jitter rand pos).1 machines gstart rule lag
        downtime =
      schedule_orders (generate_orders_with_D counts durations_ABC count_D
        lag_D_min_h start slack jitter rand' pos').1 machines gstart rule lag
        downtime := by
  have hmain : (generate_orders_with_D counts durations_ABC count_D lag_D_min_h
      start slack jitter rand pos).1 =
      (generate_orders_with_D counts durations_ABC count_D lag_D_min_h start
        slack jitter rand' pos').1 ∧
      (generate_orders_with_D counts durations_ABC count_D lag_D_min_h start
        slack jitter rand pos).2 = pos := by
    simp only [generate_orders_with_D]
    rw [genSimpleLoop_indep "A" (durations_ABC "A") start slack jitter rand rand' h
      (counts "A") 1 pos pos']
    dsimp only
    rw [genSimpleLoop_indep "B" (durations_ABC "B") start slack jitter rand rand' h
      (counts "B")
      (genSimpleLoop "A" (durations_ABC "A") start slack jitter rand'
        (counts "A") 1 pos').2.1 pos
      (genSimpleLoop "A" (durations_ABC "A") start slack jitter rand'
        (counts "A") 1 pos').2.2]
    dsimp only
    rw [genSimpleLoop_indep "C" (durations_ABC "C") start slack jitter rand rand' h
      (counts "C")
      (genSimpleLoop "B" (durations_ABC "B") start slack jitter rand' (counts "B")
        (genSimpleLoop "A" (durations_ABC "A") start slack jitter rand'
          (counts "A") 1 pos').2.1
        (genSimpleLoop "A" (durations_ABC "A") start slack jitter rand'
          (counts "A") 1 pos').2.2).2.1 pos
      (genSimpleLoop "B" (durations_ABC "B") start slack jitter rand' (counts "B")
        (genSimpleLoop "A" (durations_ABC "A") start slack jitter rand'
          (counts "A") 1 pos').2.1
        (genSimpleLoop "A" (durations_ABC "A") start slack jitter rand'
          (counts "A") 1 pos').2.2).2.2]
    exact ⟨rfl, rfl⟩
  exact ⟨hmain.1, hmain.2, by rw [hmain.1]⟩

unseal Rat.add Rat.mul Rat.sub Rat.inv in
/-- **C6 counterexample**: with jitter 1 hour and due dates enabled, running
generation-plus-scheduling twice in the same process (the second run starting
at the stream position where the first stopped, as Python's ambient global
`random.random()` does) yields different plans: the stream values are
legitimate `random()` outputs (in `[0, 1)`), yet the two runs' due dates
differ, so the claim's "running twice yields identical plans" fails as does
its premise that the jitter source is supplied to the generator. -/
theorem C6_counterexample :
    (∀ n : Nat, 0 ≤ (if n = 0 then (0 : ℚ) else 1 / 2) ∧
      (if n = 0 then (0 : ℚ) else 1 / 2) < 1) ∧
    schedule_orders (generate_orders_with_D (fun p => if p = "A" then 1 else 0)
        (fun _ => 2) 0 0 0 (some 0) 1 (fun n => if n = 0 then 0 else 1 / 2) 0).1
      ["M1"] 0 "LPT" 0 [] ≠
    schedule_orders (generate_orders_with_D (fun p => if p = "A" then 1 else 0)
        (fun _ => 2) 0 0 0 (some 0) 1 (fun n => if n = 0 then 0 else 1 / 2)
        ((generate_orders_with_D (fun p => if p = "A" then 1 else 0)
          (fun _ => 2) 0 0 0 (some 0) 1
          (fun n => if n = 0 then 0 else 1 / 2) 0).2)).1
      ["M1"] 0 "LPT" 0 [] := by
  constructor
  · intro n
    rcases n with _ | n <;> norm_num
  · decide

/-- **C6 witness**: the amended theorem at a concrete jitter-free
configuration — two runs from different streams and positions generate the
same single order and the same plan, with the stream position untouched. -/
theorem C6_reproducible_witness :
    (generate_orders_with_D (fun p => if p = "A" then 1 else 0) (fun _ => 2)
        0 0 0 (some 0) 0 (fun _ => 0) 0).1 =
      (generate_orders_with_D (fun p => if p = "A" then 1 else 0) (fun _ => 2)
        0 0 0 (some 0) 0 (fun _ => 1 / 2) 5).1 ∧
    (generate_orders_with_D (fun p => if p = "A" then 1 else 0) (fun _ => 2)
        0 0 0 (some 0) 0 (fun _ => 0) 0).2 = 0 ∧
    schedule_orders (generate_orders_with_D (fun p => if p = "A" then 1 else 0)
        (fun _ => 2) 0 0 0 (some 0) 0 (fun _ => 0) 0).1 ["M1"] 0 "LPT" 0 [] =
      schedule_orders (generate_orders_with_D (fun p => if p = "A" then 1 else 0)
        (fun _ => 2) 0 0 0 (some 0) 0 (fun _ => 1 / 2) 5).1 ["M1"] 0 "LPT" 0 [] :=
  C6_reproducible_without_jitter (fun p => if p = "A" then 1 else 0) (fun _ => 2)
    0 0 0 (some 0) 0 (fun _ => 0) (fun _ => 1 / 2) 0 5 ["M1"] 0 "LPT" 0 []
    (.inl rfl)

/-- The machine-choice loop over an empty machine list yields `none`, so the
scheduling loop fails on its first order — modelling the `IndexError` Python
raises at `machines[0]` (scheduler.py line 159). -/
theorem scheduleAux_nil_machines (lag : ℚ)
    (dt : List (String × List TimeInterval)) (gstart : ℚ) (o : WorkOrder)
    (rest : List WorkOrder) (avail : String → ℚ)
    (prevEnd : String × Nat → Option ℚ) :
    scheduleAux [] lag dt gstart (o :: rest) avail prevEnd =
      .error "IndexError: list index out of range" := rfl

/-- **C7 amended**: with an empty machine list, `schedule_orders` on a
**non-empty** operations list fails (the unhandled `IndexError` at
`machines[0]`), producing an error and no partial plan; with an empty
operations list it instead returns the empty plan without any rejection
(`C7_counterexample`), so no validation happens "before scheduling begins". -/
theorem C7_empty_machines_error (orders : List WorkOrder) (gstart : ℚ)
    (rule : String) (lag : ℚ) (downtime : List (String × List TimeInterval))
    (h : orders ≠ []) :
    schedule_orders orders [] gstart rule lag downtime =
      .error "IndexError: list index out of range" := by
  unfold schedule_orders
  rcases hs : orders_sorted rule orders with _ | ⟨o, rest⟩
  · exfalso
    have hperm := List.perm_insertionSort (fun a b => schedLe rule a b = true) orders
    rw [show orders.insertionSort (fun a b => schedLe rule a b = true) =
      orders_sorted rule orders from rfl, hs] at hperm
    exact h hperm.symm.eq_nil
  · exact scheduleAux_nil_machines lag (normalizeDowntime downtime) gstart o rest _ _

/-- **C7 counterexample**: with an empty operations list and an empty machine
list, `schedule_orders` is not rejected at all — it returns the empty plan —
refuting "for every operations list, an empty machine list is rejected before
scheduling begins". -/
theorem C7_counterexample :
    schedule_orders [] [] 0 "LPT" 0 [] = .ok [] := rfl

/-- **C7 witness**: the amended theorem at one concrete non-empty order
list. -/
theorem C7_empty_machines_error_witness :
    schedule_orders [⟨"WO1", "A", 2, none, none⟩] [] 0 "LPT" 0 [] =
      .error "IndexError: list index out of range" :=
  C7_empty_machines_error [⟨"WO1", "A", 2, none, none⟩] 0 "LPT" 0 []
    (by decide)

/-- **C8**: `dataframe_to_plan` fails naming the missing fields if and only if
some required column of `{id, product, machine, start, end, duration_hours}`
is absent; the error lists exactly the missing required columns (and nothing
else); and whenever all required columns are present the whole record set is
returned — in particular the absence of `due_date` alone never causes
rejection.  On rejection the `Except.error` result carries no records at all,
so no partial plan is returned. -/
theorem C8_ingest_validation (df : DataFrame) :
    ((∃ msg, dataframe_to_plan df = .error msg) ↔
      ∃ c ∈ ["id", "product", "machine", "start", "end", "duration_hours"],
        c ∉ df.columns) ∧
    (∀ msg, dataframe_to_plan df = .error msg →
      msg ≠ [] ∧
      (∀ c ∈ msg,
        c ∈ ["id", "product", "machine", "start", "end", "duration_hours"] ∧
        c ∉ df.columns) ∧
      (∀ c ∈ ["id", "product", "machine", "start", "end", "duration_hours"],
        c ∉ df.columns → c ∈ msg)) ∧
    ((∀ c ∈ ["id", "product", "machine", "start", "end", "duration_hours"],
        c ∈ df.columns) →
      dataframe_to_plan df = .ok (df.rows.map (fun r => df.columns.zip r))) := by
  unfold dataframe_to_plan
  by_cases hm : (["id", "product", "machine", "start", "end",
      "duration_hours"].filter (fun c => decide (c ∉ df.columns))) = []
  · rw [if_pos hm]
    refine ⟨?_, ?_, fun _ => rfl⟩
    · constructor
      · rintro ⟨msg, hmsg⟩
        exact Except.noConfusion hmsg
      · rintro ⟨c, hcreq, hcabs⟩
        exfalso
        have := List.filter_eq_nil_iff.mp hm c hcreq
        simp only [decide_eq_true_iff] at this
        exact this hcabs
    · intro msg hmsg
      exact Except.noConfusion hmsg
  · rw [if_neg hm]
    refine ⟨?_, ?_, ?_⟩
    · constructor
      · rintro ⟨msg, hmsg⟩
        rcases List.eq_nil_or_concat (["id", "product", "machine", "start",
            "end", "duration_hours"].filter (fun c => decide (c ∉ df.columns)))
          with hnil | ⟨l0, c, hcons⟩
        · exact absurd hnil hm
        · have hcmem : c ∈ (["id", "product", "machine", "start", "end",
              "duration_hours"].filter (fun c => decide (c ∉ df.columns))) := by
            rw [hcons, List.concat_eq_append]
            exact List.mem_concat_self l0 c
          have := List.mem_filter.mp hcmem
          refine ⟨c, this.1, ?_⟩
          simpa using this.2
      · intro _
        exact ⟨_, rfl⟩
    · intro msg hmsg
      injection hmsg with hmsg
      subst hmsg
      refine ⟨hm, ?_, ?_⟩
      · intro c hc
        have := List.mem_filter.mp hc
        refine ⟨this.1, ?_⟩
        simpa using this.2
      · intro c hcreq hcabs
        exact List.mem_filter.mpr ⟨hcreq, by simpa using hcabs⟩
    · intro hall
      exfalso
      apply hm
      rw [List.filter_eq_nil_iff]
      intro c hc
      simp only [decide_eq_true_iff]
      intro habs
      exact habs (hall c hc)

/-- **C8 witness**: a record set missing only `duration_hours` is rejected
(with a message), and one with all required columns but no `due_date` column
is accepted whole. -/
theorem C8_ingest_validation_witness :
    (∃ msg, dataframe_to_plan
      ⟨["id", "product", "machine", "start", "end"], []⟩ = .error msg) ∧
    dataframe_to_plan
      ⟨["id", "product", "machine", "start", "end", "duration_hours"],
        [["WO1", "A", "M1", "0", "5", "5"]]⟩ =
      .ok [[("id", "WO1"), ("product", "A"), ("machine", "M1"), ("start", "0"),
        ("end", "5"), ("duration_hours", "5")]] :=
  ⟨(C8_ingest_validation ⟨["id", "product", "machine", "start", "end"], []⟩).1.mpr
      (by decide),
   by
    have := (C8_ingest_validation
      ⟨["id", "product", "machine", "start", "end", "duration_hours"],
        [["WO1", "A", "M1", "0", "5", "5"]]⟩).2.2 (by decide)
    rw [this]
    rfl⟩

/-- **C9**: for an empty operations list `schedule_orders` returns the empty
plan (whatever the machines, rule, lag and downtime), and `metrics` of an
empty plan reports makespan `0`, an empty per-machine map and an empty
lateness block. -/
theorem C9_empty_plan_and_metrics (machines : List String) (gstart : ℚ)
    (rule : String) (lag : ℚ) (downtime : List (String × List TimeInterval)) :
    schedule_orders [] machines gstart rule lag downtime = .ok [] ∧
    metrics [] = ⟨0, [], none⟩ :=
  ⟨rfl, rfl⟩

/-- **C10**: for every rule string whose upper-casing is none of `LPT`, `EDD`,
`WSPT`, no error is raised on account of the rule: the sort key collapses to
the group/work-order-id/op-index prefix followed by the default tie-break
`(product, op index)` (the two rule components are the constant `(0, 0)`),
and — machines permitting — `schedule_orders` still returns a complete plan
with one task per operation. -/
theorem C10_unknown_rule_total (rule : String)
    (h : strUpper rule ≠ "LPT" ∧ strUpper rule ≠ "EDD" ∧ strUpper rule ≠ "WSPT") :
    (∀ o : WorkOrder, schedKey rule o =
      (o.product != "D", o.id, o.op_index.getD 0, 0, 0, o.product,
        o.op_index.getD 0)) ∧
    (∀ (orders : List WorkOrder) (machines : List String) (gstart lag : ℚ)
      (downtime : List (String × List TimeInterval)), machines ≠ [] →
      ∃ plan, schedule_orders orders machines gstart rule lag downtime = .ok plan ∧
        plan.length = orders.length) := by
  constructor
  · intro o
    unfold schedKey ruleKeyQ
    rw [if_neg h.1, if_neg h.2.1, if_neg h.2.2]
  · intro orders machines gstart lag downtime hm
    obtain ⟨plan, hplan⟩ := scheduleAux_ok machines lag (normalizeDowntime downtime)
      gstart hm (orders_sorted rule orders) (fun _ => gstart) (fun _ => none)
    refine ⟨plan, hplan, ?_⟩
    have hlen := (scheduleAux_get machines lag (normalizeDowntime downtime) gstart
      (orders_sorted rule orders) _ _ plan hplan).1
    rw [hlen]
    exact (List.perm_insertionSort (fun a b => schedLe rule a b = true) orders).length_eq

unseal Rat.add Rat.mul Rat.sub Rat.inv in
/-- **C10 witness**: the rule string `"foo"` (upper-cased `"FOO"`) is outside
the documented set; the key collapses to the default for a sample order and a
one-order schedule still succeeds with a complete plan. -/
theorem C10_unknown_rule_total_witness :
    schedKey "foo" ⟨"WO1", "A", 2, none, none⟩ =
      (("A" != "D"), "WO1", 0, 0, 0, "A", 0) ∧
    ∃ plan, schedule_orders [⟨"WO1", "A", 2, none, none⟩] ["M1"] 0 "foo" 0 [] =
      .ok plan ∧ plan.length = 1 :=
  ⟨(C10_unknown_rule_total "foo" (by decide)).1 ⟨"WO1", "A", 2, none, none⟩,
   (C10_unknown_rule_total "foo" (by decide)).2 [⟨"WO1", "A", 2, none, none⟩]
      ["M1"] 0 0 [] (by decide)⟩
